import Mathlib

/-!
Verification development for the schema-to-declaration translator of
`google-api-typings-generator` (`src/app.ts`).

The TypeScript source is shallowly embedded:
* pure helpers (`formatPropertyName`, `getName`, `getType`, `getMethodReturn`,
  `isEmptySchema`, the scalar translation table) become Lean functions;
* the mutable `IndentedTextWriter` / `TypescriptTextWriter` pair and the
  `App.seenSchemaRefs` set become an explicit state (`WriterState`) threaded
  through a state-plus-exceptions monad `M` in which a thrown JavaScript
  error aborts the computation but leaves the state as it was at the throw
  point (exactly how a JS exception leaves a mutable object);
* schema-graph recursion (`getType`, `writeResources`, the stub-value
  generators) is made total with an explicit fuel parameter: fuel `0`
  yields the distinguished `Err.outOfFuel`, every real JS exception is
  `Err.thrown msg`.  Theorems quantify over the fuel or use a concrete
  fuel large enough for the input at hand.
* JavaScript strings are modelled by `String` / `List Char`; record
  (object-literal) fields in insertion order by association lists;
  `undefined` by `Option`.  JS truthiness of an optional string is
  `optStrTruthy` (`undefined` and `""` are falsy), of an optional object
  `Option.isSome` (note `{}` is truthy in JS).

Functions of this repository that the claims depend on but whose sources
are not part of `src/` (`src/utils.ts`, `src/tslint.ts`, `src/constants.ts`,
`src/writer.ts`) are modelled from the specification and from the unit
tests in `src/test/utils.spec.ts`; each such definition carries a
`Modelled from the spec` doc comment.
-/

/-- Errors of the embedding: `thrown msg` is a JavaScript `throw` (the
`Error` message is kept), `outOfFuel` marks exhaustion of the artificial
fuel and corresponds to no behaviour of the source. -/
inductive Err where
  | thrown (msg : String)
  | outOfFuel
deriving DecidableEq, Repr

/-- Modelled from the spec: `checkExists` of `src/utils.ts` (absent from
`src/`); its behaviour is fixed by `test/utils.spec.ts`: it returns a
present value and throws on `undefined`. -/
def checkExists {α : Type} : Option α → Except Err α
  | some a => .ok a
  | none => .error (.thrown "Expected value to be defined, but got undefined")

/-- JS truthiness of an optional string: `undefined` and `""` are falsy. -/
def optStrTruthy : Option String → Bool
  | none => false
  | some s => !s.isEmpty

/-- `gapi.client.discovery.JsonSchema`, restricted to the fields the
translator reads: `type`, `items`, `properties`, `additionalProperties`,
`$ref` (called `ref` here), `repeated`, `required`, `description`. -/
inductive JsonSchema where
  | mk (type : Option String) (items : Option JsonSchema)
      (properties : Option (List (String × JsonSchema)))
      (additionalProperties : Option JsonSchema)
      (ref : Option String)
      (repeated : Bool) (required : Bool)
      (description : Option String)

def JsonSchema.type : JsonSchema → Option String
  | .mk t _ _ _ _ _ _ _ => t

def JsonSchema.items : JsonSchema → Option JsonSchema
  | .mk _ i _ _ _ _ _ _ => i

def JsonSchema.properties : JsonSchema → Option (List (String × JsonSchema))
  | .mk _ _ p _ _ _ _ _ => p

def JsonSchema.additionalProperties : JsonSchema → Option JsonSchema
  | .mk _ _ _ a _ _ _ _ => a

def JsonSchema.ref : JsonSchema → Option String
  | .mk _ _ _ _ r _ _ _ => r

def JsonSchema.repeated : JsonSchema → Bool
  | .mk _ _ _ _ _ r _ _ => r

def JsonSchema.required : JsonSchema → Bool
  | .mk _ _ _ _ _ _ r _ => r

def JsonSchema.description : JsonSchema → Option String
  | .mk _ _ _ _ _ _ _ d => d

/-- A JS record (object literal) in insertion order. -/
def lookupRec {α : Type} : List (String × α) → String → Option α
  | [], _ => none
  | (k, v) :: t, n => if k = n then some v else lookupRec t n

/-- `_.isEmpty` applied to the optional `properties` record: `undefined`
and `{}` are both lodash-empty. -/
def propsIsEmpty : Option (List (String × JsonSchema)) → Bool
  | none => true
  | some l => l.isEmpty

/-- `isEmptySchema` of `src/app.ts`:
`_.isEmpty(schema.properties) && !schema.additionalProperties`. -/
def isEmptySchema (schema : JsonSchema) : Bool :=
  propsIsEmpty schema.properties && schema.additionalProperties.isNone

/-- The fixed scalar translation table `typesMap` of `src/app.ts`. -/
def typesMap : List (String × String) :=
  [("integer", "number"), ("object", "any"), ("any", "any"), ("string", "string")]

/-- `formatPropertyName` of `src/app.ts`: quote names containing
a dot, a dash or an at-sign. -/
def formatPropertyName (name : String) : String :=
  if name.data.contains '.' || name.data.contains '-' || name.data.contains '@' then
    "\"" ++ name ++ "\""
  else name

/-- Generic split of a character list at every occurrence of `sep`
(the behaviour of JS `String.prototype.split` with a one-character
separator: the result is never empty and empty pieces are kept). -/
def splitOnChar (sep : Char) : List Char → List (List Char)
  | [] => [[]]
  | c :: cs =>
    let r := splitOnChar sep cs
    if c = sep then [] :: r
    else
      match r with
      | [] => [[c]]
      | h :: t => (c :: h) :: t

/-- `getName` of `src/app.ts`: the text after the final dot of a dotted
identifier, `undefined` for a falsy path. -/
def getName (path : Option String) : Option String :=
  if !optStrTruthy path then none
  else ((splitOnChar '.' (path.getD "").data).getLast?).map String.mk

/-- `formatComment` of `src/app.ts` (the identity on non-falsy text). -/
def formatComment (comment : String) : String :=
  if comment.data.isEmpty then "" else comment

/-- Modelled from the spec: `getResourceTypeName` of `src/utils.ts`
(absent from `src/`); behaviour fixed by `test/utils.spec.ts`: split the
resource name on dashes, capitalise the first letter of each part, join,
and append `Resource`. -/
def getResourceTypeName (name : String) : String :=
  let cap : List Char → List Char := fun l =>
    match l with
    | [] => []
    | c :: t => c.toUpper :: t
  String.join (((splitOnChar '-' name.data).map cap).map String.mk) ++ "Resource"

/-- Modelled from the spec: `hasPrefixI` of `src/tslint.ts` (absent from
`src/`): the name looks like it starts with a capital `I` followed by
another capital letter (the `IPAllocationPolicy` workaround). -/
def hasPrefixI (name : String) : Bool :=
  match name.data with
  | 'I' :: c :: _ => c.isUpper
  | _ => false

/-- The mutable state of one translation run: the chunks written so far
(one entry per underlying `write` call), the indent depth of the
`IndentedTextWriter`, the `App.seenSchemaRefs` set (as a duplicate-free
list), and the writer configuration (`maxLineLength`, `bannedTypes`)
carried by the `TypescriptTextWriter` object. -/
structure WriterState where
  output : List String
  indent : Nat
  seen : List String
  maxLineLength : Nat
  bannedTypes : List String
deriving DecidableEq, Repr

/-- State-plus-exceptions monad: an exception aborts the computation but
the state stays as it was at the throw point, exactly like a JS `throw`
escaping methods of a mutable writer object. -/
def M (α : Type) : Type := WriterState → Except Err α × WriterState

instance : Monad M where
  pure a := fun st => (.ok a, st)
  bind m k := fun st =>
    match m st with
    | (.ok a, st') => k a st'
    | (.error e, st') => (.error e, st')

/-- Lift an `Except` value (an eagerly evaluated JS subexpression that may
have thrown) into `M`. -/
def liftE {α : Type} (e : Except Err α) : M α := fun st => (e, st)

/-- A JS `throw new Error(msg)`. -/
def throwT {α : Type} (msg : String) : M α := liftE (.error (.thrown msg))

/-- Read the current writer state. -/
def getM : M WriterState := fun st => (.ok st, st)

/-- The newline convention of the `IndentedTextWriter` (default `"\n"`). -/
def nl : String := "\n"

/-- The indent string of the `IndentedTextWriter` (default four spaces). -/
def tabString : String := "    "

/-- `Array(indent + 1).join(tabString)`: the indent prefix. -/
def tabs : Nat → String
  | 0 => ""
  | n + 1 => tabString ++ tabs n

/-- `IndentedTextWriter.write`: append one raw chunk. -/
def iWrite (chunk : String) : M Unit := fun st =>
  (.ok (), { st with output := st.output ++ [chunk] })

/-- `IndentedTextWriter.startIndentedLine`. -/
def iStartIndentedLine (chunk : String) : M Unit := fun st =>
  (.ok (), { st with output := st.output ++ [tabs st.indent ++ chunk] })

/-- `IndentedTextWriter.endIndentedLine`. -/
def iEndIndentedLine (chunk : String) : M Unit := fun st =>
  (.ok (), { st with output := st.output ++ [chunk ++ tabs st.indent] })

/-- `IndentedTextWriter.writeLine`. -/
def iWriteLine (chunk : String) : M Unit := iStartIndentedLine (chunk ++ nl)

/-- `IndentedTextWriter.writeNewLine`. -/
def iWriteNewLine (chunk : String) : M Unit := iEndIndentedLine (chunk ++ nl)

/-- `this.writer.indent++`. -/
def incIndent : M Unit := fun st => (.ok (), { st with indent := st.indent + 1 })

/-- `this.writer.indent--`. -/
def decIndent : M Unit := fun st => (.ok (), { st with indent := st.indent - 1 })

/-- The line emitted by `writeLine chunk` at indent depth `ind`
(shaped exactly as `iWriteLine` builds it). -/
def mkLine (ind : Nat) (s : String) : String := tabs ind ++ (s ++ nl)

/-- The whitespace set of JS `String.prototype.trim` (ECMAScript
WhiteSpace plus LineTerminator code points). -/
def jsWsCodes : List Nat :=
  [0x09, 0x0A, 0x0B, 0x0C, 0x0D, 0x20, 0xA0, 0x1680,
   0x2000, 0x2001, 0x2002, 0x2003, 0x2004, 0x2005, 0x2006, 0x2007,
   0x2008, 0x2009, 0x200A, 0x2028, 0x2029, 0x202F, 0x205F, 0x3000, 0xFEFF]

def jsWs (c : Char) : Bool := jsWsCodes.contains c.toNat

/-- The `irregularSpaces` catalogue of `src/app.ts` (each regex replaces
one code point globally with a plain space). -/
def irregularCodes : List Nat :=
  [0x000B, 0x000C, 0x00A0, 0x0085, 0x1680, 0x180E, 0xFEFF,
   0x2000, 0x2001, 0x2002, 0x2003, 0x2004, 0x2005, 0x2006, 0x2007,
   0x2008, 0x2009, 0x200A, 0x200B, 0x2028, 0x2029, 0x202F, 0x205F, 0x3000]

def isIrregularSpace (c : Char) : Bool := irregularCodes.contains c.toNat

/-- JS `trim` on a character list. -/
def trimL (l : List Char) : List Char :=
  ((l.dropWhile jsWs).reverse.dropWhile jsWs).reverse

/-- Replace every occurrence of the (nonempty) pattern, scanning left to
right, with fuel bounded by the input length. -/
def replaceAllL (fuel : Nat) (pat repl l : List Char) : List Char :=
  match fuel, l with
  | _, [] => []
  | 0, rest => rest
  | g + 1, c :: cs =>
    if pat.isPrefixOf (c :: cs) then repl ++ replaceAllL g pat repl ((c :: cs).drop pat.length)
    else c :: replaceAllL g pat repl cs

/-- Modelled from the spec: `zeroWidthJoinerCharacter` of
`src/constants.ts` (absent from `src/`), the zero-width joiner U+200D. -/
def zwj : Char := Char.ofNat 0x200D

/-- The two sanitisation passes of `TypescriptTextWriter.comment`: defuse
literal `*/` sequences and the JSDoc tags `@class`, `@this`, `@typedef`,
`@type`, `@property` by inserting a zero-width joiner (replacing
sequentially is equivalent to the source's global regex replaces because
a replacement never creates a new occurrence of a later pattern). -/
def escapeComment (l : List Char) : List Char :=
  let rep : List Char → List Char → List Char → List Char := fun pat repl s =>
    replaceAllL (s.length + 1) pat repl s
  let s1 := rep ['*', '/'] ['*', zwj, '/'] l
  let s2 := rep ['@', 'c', 'l', 'a', 's', 's'] ('@' :: zwj :: ['c', 'l', 'a', 's', 's']) s1
  let s3 := rep ['@', 't', 'h', 'i', 's'] ('@' :: zwj :: ['t', 'h', 'i', 's']) s2
  let s4 := rep ['@', 't', 'y', 'p', 'e', 'd', 'e', 'f'] ('@' :: zwj :: ['t', 'y', 'p', 'e', 'd', 'e', 'f']) s3
  let s5 := rep ['@', 't', 'y', 'p', 'e'] ('@' :: zwj :: ['t', 'y', 'p', 'e']) s4
  rep ['@', 'p', 'r', 'o', 'p', 'e', 'r', 't', 'y'] ('@' :: zwj :: ['p', 'r', 'o', 'p', 'e', 'r', 't', 'y']) s5

/-- Split at `/\r?\n/`: split at every `'\n'` and strip one trailing
`'\r'` from each piece. -/
def splitLinesCR (l : List Char) : List (List Char) :=
  (splitOnChar '\n' l).map fun s =>
    if s.getLast? = some '\r' then s.dropLast else s

/-- One step of the greedy word-wrap loop of
`TypescriptTextWriter.comment`: `acc` is the list of pushed lines, `cur`
the line under construction (`newLine` in the source). -/
def wrapGo (budget : Int) : List (List Char) → List (List Char) → List Char → List (List Char)
  | [], acc, cur => acc ++ [cur]
  | w :: ws, acc, cur =>
    if budget < (cur.length : Int) + 1 + (w.length : Int) then wrapGo budget ws (acc ++ [cur]) w
    else if cur.isEmpty then wrapGo budget ws acc w
    else wrapGo budget ws acc (cur ++ ' ' :: w)

/-- `!text || text.trim() === ''`: the guard that makes `comment` emit
nothing at all. -/
def commentActive (text : String) : Bool :=
  !(text.data.isEmpty || (trimL text.data).isEmpty)

/-- The width budget of `comment`: configured maximum, minus the current
indentation, minus the length of `"/**  */"`. -/
def commentBudget (maxLineLength ind : Nat) : Int :=
  (maxLineLength : Int) - (ind : Int) * 4 - 7

/-- The sanitised input lines of `comment` (trimmed, split at line
breaks), before wrapping; empty when the guard suppresses all output. -/
def commentSourceLines (text : String) : List (List Char) :=
  if commentActive text then splitLinesCR (trimL (escapeComment text.data)) else []

/-- The treatment of one input line by `comment`: a line longer than the
budget is split at spaces and packed greedily, a fitting line is kept
whole. -/
def wrapBlock (budget : Int) (l : List Char) : List (List Char) :=
  if budget < (l.length : Int) then wrapGo budget (splitOnChar ' ' l) [] []
  else [l]

/-- Word-wrap stage of `comment`: each sanitised input line goes through
`wrapBlock`. -/
def commentWrappedLines (maxLineLength ind : Nat) (text : String) : List (List Char) :=
  (commentSourceLines text).foldr
    (fun l rest => wrapBlock (commentBudget maxLineLength ind) l ++ rest) []

/-- Post-wrap stage of `comment`: trim each line, then normalise the
irregular-space code points to plain spaces. -/
def commentFinalLines (maxLineLength ind : Nat) (text : String) : List (List Char) :=
  ((commentWrappedLines maxLineLength ind text).map trimL).map
    (List.map fun c => if isIrregularSpace c then ' ' else c)

/-- `Math.max(...lines.map(x => x.length))` over a nonempty list (the
list is empty only when the guard already suppressed all output). -/
def maxLenList (ls : List (List Char)) : Int :=
  ls.foldl (fun a l => max a (l.length : Int)) 0

/-- Whether `comment` flanks its block with the `max-line-length`
suppression markers: some produced line still exceeds the budget. -/
def commentHasMarkers (maxLineLength ind : Nat) (text : String) : Bool :=
  !(commentFinalLines maxLineLength ind text).isEmpty &&
    commentBudget maxLineLength ind < maxLenList (commentFinalLines maxLineLength ind text)

/-- The comment body block: single-line `/** l */` form for one line,
block form with `" * "` prefixes otherwise. -/
def commentBody (ind : Nat) (lines : List (List Char)) : List String :=
  match lines with
  | [] => []
  | [l] => [mkLine ind ("/** " ++ String.mk l ++ " */")]
  | ls =>
    [mkLine ind "/**"] ++
      (ls.map fun l => if l.isEmpty then mkLine ind " *" else mkLine ind (" * " ++ String.mk l)) ++
      [mkLine ind " */"]

def disableMarkerText : String := "// tslint:disable:max-line-length"

def enableMarkerText : String := "// tslint:enable:max-line-length"

/-- All chunks emitted by `TypescriptTextWriter.comment` for the given
configuration, indent depth and raw text. -/
def commentChunks (maxLineLength ind : Nat) (text : String) : List String :=
  (if commentHasMarkers maxLineLength ind text then [mkLine ind disableMarkerText] else []) ++
    commentBody ind (commentFinalLines maxLineLength ind text) ++
    (if commentHasMarkers maxLineLength ind text then [mkLine ind enableMarkerText] else [])

/-- `TypescriptTextWriter.comment`: every emission goes through
`writer.writeLine` at the current indent depth, so the whole call appends
`commentChunks` to the output. -/
def twComment (text : String) : M Unit := fun st =>
  (.ok (), { st with output := st.output ++ commentChunks st.maxLineLength st.indent text })

/-- JS `\w` word characters (for the `\b` word boundaries of
`includesBannedType`). -/
def isWordChar (c : Char) : Bool := c.isAlphanum || c = '_'

/-- A `\b` boundary between an optional left and right character. -/
def wbBoundary : Option Char → Option Char → Bool
  | none, none => false
  | none, some c => isWordChar c
  | some c, none => isWordChar c
  | some a, some c => isWordChar a != isWordChar c

/-- Whether the pattern occurs in `l` with `\b` word boundaries on both
sides (`type.match(new RegExp('\\b' + bannedType + '\\b'))`). -/
def wbMatch (pat : List Char) : Option Char → List Char → Bool
  | prev, l =>
    (pat.isPrefixOf l && wbBoundary prev pat.head? &&
      wbBoundary ((pat.getLast?).orElse fun _ => prev) ((l.drop pat.length).head?)) ||
    (match l with
     | [] => false
     | c :: cs => wbMatch pat (some c) cs)

/-- `TypescriptTextWriter.includesBannedType`. -/
def includesBannedType (bannedTypes : List String) (type : String) : Bool :=
  bannedTypes.any fun bannedType => wbMatch bannedType.data none type.data

def ignoreBannedTypeText : String := "// tslint:disable-next-line:ban-types"

/-- The polymorphic result of the type translator: a flat type token or a
callback rendering a nested structure through the writer
(`string | TypescriptWriterCallback`). -/
inductive TypeRendering where
  | flat (token : String)
  | nested (render : M Unit)

/-- `TypescriptTextWriter.write` with its `string | callback` dispatch. -/
def twWriteTR : TypeRendering → M Unit
  | .flat s => iWrite s
  | .nested cb => cb

/-- `TypescriptTextWriter.braces`: header, indented body, closing brace.
The increment/decrement pair is transcribed exactly as in the source
(no try/finally: a throwing body leaves the depth incremented). -/
def twBraces (text : String) (ctx : M Unit) : M Unit := do
  iWriteLine (text ++ " \x7b")
  incIndent
  ctx
  decIndent
  iWriteLine "\x7d"

/-- `TypescriptTextWriter.interface`. -/
def twInterface (name : String) (ctx : M Unit) (emptyInterface : Bool) : M Unit := do
  let ignoreRules : List String :=
    (if hasPrefixI name then ["interface-name"] else []) ++
      (if emptyInterface then ["no-empty-interface"] else [])
  if ignoreRules.length > 0 then
    iWriteLine ("// tslint:disable-next-line:" ++ String.intercalate " " ignoreRules)
  else pure ()
  twBraces ("interface " ++ name) ctx

/-- `TypescriptTextWriter.endLine`. -/
def twEndLine (chunk : String) : M Unit := do
  iWrite chunk
  iWrite nl

/-- `TypescriptTextWriter.newLine`. -/
def twNewLine (chunk : String) : M Unit := iStartIndentedLine chunk

/-- `TypescriptTextWriter.anonymousType` (same unguarded
increment/decrement discipline as `braces`). -/
def twAnonymousType (ctx : M Unit) : M Unit := do
  twEndLine "\x7b"
  incIndent
  ctx
  decIndent
  iStartIndentedLine "\x7d"

/-- `TypescriptTextWriter.scope` (same unguarded increment/decrement
discipline as `braces`). -/
def twScope (ctx : M Unit) (startTag endTag : String) : M Unit := do
  iWrite startTag
  iWrite nl
  incIndent
  ctx
  decIndent
  iStartIndentedLine endTag

/-- `TypescriptTextWriter.property` with its `string | callback`
dispatch and the banned-type suppression directive. -/
def twProperty (name : String) (type : TypeRendering) (required : Bool) : M Unit :=
  match type with
  | .nested cb => do
    iStartIndentedLine (formatPropertyName name ++ (if required then "" else "?") ++ ": ")
    cb
    twEndLine ";"
  | .flat t => do
    let st ← getM
    if includesBannedType st.bannedTypes t then iWriteLine ignoreBannedTypeText else pure ()
    iWriteLine (formatPropertyName name ++ (if required then "" else "?") ++ ": " ++ t ++ ";")

/-- One parameter of `TypescriptTextWriter.method`. -/
structure MethodParam where
  parameter : String
  type : TypeRendering
  required : Bool

/-- The `_.forEach(parameters, ...)` loop body of
`TypescriptTextWriter.method`: emit one parameter, with a comma and a
separator after every parameter but the last. -/
def twMethodParams (singleLine : Bool) : List MethodParam → M Unit
  | [] => pure ()
  | p :: rest => do
    (match p.type with
     | .flat t => do
       let st ← getM
       if includesBannedType st.bannedTypes t then iWriteNewLine ignoreBannedTypeText else pure ()
     | .nested _ => pure ())
    iWrite (p.parameter ++ (if p.required then "" else "?") ++ ": ")
    twWriteTR p.type
    (if rest.isEmpty then pure ()
     else do
       iWrite ","
       if singleLine then iWrite " " else iWriteNewLine "")
    twMethodParams singleLine rest

/-- `TypescriptTextWriter.method`. -/
def twMethod (name : String) (parameters : List MethodParam) (returnType : String)
    (singleLine : Bool) : M Unit := do
  let st ← getM
  let ignoreBannedReturnType := includesBannedType st.bannedTypes returnType
  if singleLine && ignoreBannedReturnType then iWriteLine ignoreBannedTypeText else pure ()
  iStartIndentedLine (name ++ "(")
  twMethodParams singleLine parameters
  if !singleLine && ignoreBannedReturnType then do
    iWriteNewLine ""
    iWriteNewLine ignoreBannedTypeText
  else pure ()
  iWrite ("): " ++ returnType ++ ";")
  twEndLine ""

/-- Lines 443 and 444 of `src/app.ts`:
`typesMap[type.type] || type.type`, then the `repeated` wrapping. -/
def scalarToken (kind : String) (repeated : Bool) : String :=
  let tsType := (lookupRec typesMap kind).getD kind
  if repeated then tsType ++ " | " ++ tsType ++ "[]" else tsType

/-- `getType` of `src/app.ts`, with fuel for the recursion into subterms.
The branch order and guards follow the source exactly.  The
`_.forEach(type.properties, ...)` loop of the object branch is expressed
as a right fold building the same sequence of writer actions (optional
description comment, then the property with its recursively translated
type; `getType` of the property is evaluated before `property` runs, and
a throw aborts the rendering).  The unreachable `else return '[]'` arm of
the array branch cannot be represented because the embedded `getType`
always yields a flat token or a callback.  A reference whose target is
missing from the registry crashes in `isEmptySchema` (reading
`properties` of `undefined`), modelled as a thrown `TypeError`. -/
def getTypeF : Nat → JsonSchema → List (String × JsonSchema) → Except Err TypeRendering
  | 0, _, _ => .error .outOfFuel
  | f + 1, type, schemas =>
    if type.type = some "array" then
      match checkExists type.items with
      | .error e => .error e
      | .ok items =>
        match getTypeF f items schemas with
        | .ok (.flat child) => .ok (.flat (child ++ "[]"))
        | .ok (.nested child) =>
          .ok (.nested (do
            iWrite "Array<"
            child
            iWrite ">"))
        | .error e => .error e
    else if type.type = some "object" ∧ type.properties.isSome then
      .ok (.nested (twAnonymousType (do
        (type.properties.getD []).foldr
          (fun p rest => do
            (if optStrTruthy p.2.description then
              twComment (formatComment (p.2.description.getD ""))
            else pure ())
            (match getTypeF f p.2 schemas with
             | .ok t => twProperty p.1 t p.2.required
             | .error e => liftE (.error e))
            rest)
          (pure ())
        match type.additionalProperties with
        | some ap =>
          (match getTypeF f ap schemas with
           | .ok t => twProperty "[key: string]" t true
           | .error e => liftE (.error e))
        | none => pure ())))
    else if type.type = some "object" ∧ type.additionalProperties.isSome then
      .ok (.nested (do
        let ap ← liftE (checkExists type.additionalProperties)
        let child ← liftE (getTypeF f ap schemas)
        iWrite "\x7b [P in string]: "
        twWriteTR child
        iWrite " \x7d"))
    else if optStrTruthy type.type then
      .ok (.flat (scalarToken (type.type.getD "") type.repeated))
    else if optStrTruthy type.ref then
      let name := type.ref.getD ""
      match lookupRec schemas name with
      | none =>
        .error (.thrown "TypeError: Cannot read properties of undefined (reading \x27properties\x27)")
      | some referencedType =>
        if isEmptySchema referencedType then .ok (.flat "any") else .ok (.flat name)
    else .error (.thrown "")

/-- The `{$ref?: string}` shape of `method.request` / `method.response`. -/
structure RefHolder where
  ref : Option String

/-- `gapi.client.discovery.RestMethod`, restricted to the fields the
walker reads. -/
structure RestMethod where
  id : Option String
  description : Option String
  parameters : Option (List (String × JsonSchema))
  request : Option RefHolder
  response : Option RefHolder

/-- `gapi.client.discovery.RestResource`: optional nested resources and
optional methods, both records in insertion order. -/
inductive RestResource where
  | mk (resources : Option (List (String × RestResource)))
      (methods : Option (List (String × RestMethod)))

def RestResource.resources : RestResource → Option (List (String × RestResource))
  | .mk r _ => r

def RestResource.methods : RestResource → Option (List (String × RestMethod))
  | .mk _ m => m

/-- The slice of a `RestDescription` that the stub-value generator reads. -/
structure RestDescriptionM where
  schemas : Option (List (String × JsonSchema))

/-- `getMethodReturn` of `src/app.ts`.  The wrapper name depends only on
whether the registry contains a schema called `Request`; a response
reference that resolves to a schema with properties is interpolated,
anything else (empty or missing target) becomes the empty-object
parameterisation, and a missing response becomes `<void>`. -/
def getMethodReturn (method : RestMethod) (schemas : List (String × JsonSchema)) :
    Except Err String :=
  let name := if (lookupRec schemas "Request").isSome then "client.Request" else "Request"
  match method.response with
  | some response =>
    match checkExists response.ref with
    | .error e => .error e
    | .ok r =>
      match lookupRec schemas r with
      | some schema =>
        if !propsIsEmpty schema.properties then .ok (name ++ "<" ++ r ++ ">")
        else .ok (name ++ "<\x7b\x7d>")
      | none => .ok (name ++ "<\x7b\x7d>")
  | none => .ok (name ++ "<void>")

/-- JS object spread `{...a, ...b}`: the keys of `a` in order with values
overridden by `b`, then the new keys of `b` in order. -/
def mergeRecords {α : Type} (a b : List (String × α)) : List (String × α) :=
  (a.map fun p => (p.1, (lookupRec b p.1).getD p.2)) ++
    b.filter fun q => (lookupRec a q.1).isNone

/-- Key-ascending insertion used to model the (shallow view of the)
`deep-sort-object` call on the merged parameter record; the nested
deep sort is invisible here because the documents are already deep
sorted (`sortObject(restDescription)`) before translation. -/
def insertByKey {α : Type} (p : String × α) : List (String × α) → List (String × α)
  | [] => [p]
  | q :: t => if p.1 ≤ q.1 then p :: q :: t else q :: insertByKey p t

def sortByKey {α : Type} (l : List (String × α)) : List (String × α) :=
  l.foldr insertByKey []

/-- `_.uniq`: keep the first occurrence of every element (accumulator
formulation so the definition is a structural recursion). -/
def uniqAux (seenKeys : List String) : List String → List String
  | [] => []
  | x :: t =>
    if seenKeys.contains x then uniqAux seenKeys t
    else x :: uniqAux (seenKeys ++ [x]) t

def uniqStr (l : List String) : List String := uniqAux [] l

/-- JS `Array.prototype.sort()` on strings: ascending lexicographic. -/
def insortStr (x : String) : List String → List String
  | [] => [x]
  | y :: t => if x ≤ y then x :: y :: t else y :: insortStr x t

def sortStr (l : List String) : List String := l.foldr insortStr []

/-- The `allMethods.filter(([, method]) => checkExists(method.id).startsWith(...))`
step of `writeResources`: `checkExists` may throw.  JS `startsWith` is the
character-sequence prefix test. -/
def filterNamespaceMethods (ns : String) :
    List (String × RestMethod) → Except Err (List (String × RestMethod))
  | [] => .ok []
  | (n, m) :: t => do
    let i ← checkExists m.id
    let rest ← filterNamespaceMethods ns t
    pure (if (ns ++ ".").data.isPrefixOf i.data then (n, m) :: rest else rest)

/-- The `_.forEach(parameters, ...)` loop of
`App.createRequestParameterWriterCallback`. -/
def rpwcParamsLoop (f : Nat) (schemas : List (String × JsonSchema)) :
    List (String × JsonSchema) → M Unit
  | [] => pure ()
  | (key, data) :: rest => do
    (if optStrTruthy data.description then twComment (formatComment (data.description.getD ""))
     else pure ())
    (match getTypeF f data schemas with
     | .ok t => twProperty key t data.required
     | .error e => liftE (.error e))
    rpwcParamsLoop f schemas rest

/-- `App.createRequestParameterWriterCallback`: an anonymous type with one
property per (merged) parameter and, when a request-body reference is
present, a `Request body` comment followed by the `resource` property
(emitted as required: the source passes `true`). -/
def createRequestParameterWriterCallback (f : Nat) (parameters : List (String × JsonSchema))
    (schemas : List (String × JsonSchema)) (ref : Option String) : M Unit :=
  twAnonymousType (do
    rpwcParamsLoop f schemas parameters
    if optStrTruthy ref then do
      twComment "Request body"
      twProperty "resource" (.flat (ref.getD "")) true
    else pure ())

/-- The `resource.resources` child-property loop at the end of the
`writeResources` interface callback. -/
def childResourceProps : List (String × RestResource) → M Unit
  | [] => pure ()
  | (childResourceName, _) :: rest => do
    twProperty childResourceName (.flat (getResourceTypeName childResourceName)) true
    childResourceProps rest

/-- The per-method emission of `writeResources`: optional description
comment, then the one-argument overload (guarded by
`!requestParameters.resource || !requestRef`), then the two-argument
overload (guarded by `requestRef`). -/
def methodsLoop (f : Nat) (parameters schemas : List (String × JsonSchema)) :
    List (String × RestMethod) → M Unit
  | [] => pure ()
  | (methodName, method) :: rest => do
    (if optStrTruthy method.description then twComment (formatComment (method.description.getD ""))
     else pure ())
    let requestRef : Option String := match method.request with
      | some h => h.ref
      | none => none
    let requestParameters := sortByKey (mergeRecords parameters (method.parameters.getD []))
    (if (lookupRec requestParameters "resource").isNone || !optStrTruthy requestRef then do
      let nm ← liftE (checkExists (getName (some methodName)))
      let ret ← liftE (getMethodReturn method schemas)
      twMethod (formatPropertyName nm)
        [⟨"request", .nested (createRequestParameterWriterCallback f requestParameters schemas requestRef),
          optStrTruthy requestRef⟩]
        ret false
    else pure ())
    (if optStrTruthy requestRef then do
      let nm ← liftE (checkExists (getName (some methodName)))
      let ret ← liftE (getMethodReturn method schemas)
      twMethod (formatPropertyName nm)
        [⟨"request", .nested (createRequestParameterWriterCallback f requestParameters schemas none), true⟩,
         ⟨"body", .flat (requestRef.getD ""), true⟩]
        ret false
    else pure ())
    methodsLoop f parameters schemas rest

/-- `App.writeResources` of `src/app.ts`: returns the deduplicated,
sorted list of resource names for which an interface was written at this
level.  The `_.forEach(resources, ...)` loop is expressed as a right fold
building the same sequence of writer actions.  The local
`writtenTopLevelResourceNames.push(resourceName)` of the source (executed
inside the interface callback, which `braces` always invokes) is modelled
by collecting the name after a successful `interface` call; an error
makes the return value unobservable in both versions. -/
def writeResourcesF : Nat → List (String × RestResource) →
    List (String × JsonSchema) → List (String × JsonSchema) → String → M (List String)
  | 0, _, _, _, _ => liftE (.error .outOfFuel)
  | f + 1, resources, parameters, schemas, ns => do
    let names ← resources.foldr
      (fun entry restM => do
        let resourceName := entry.1
        let resource := entry.2
        let resourceInterfaceName := getResourceTypeName resourceName
        (match resource.resources with
         | some subs => do
           let _ ← writeResourcesF f subs parameters schemas ns
           pure ()
         | none => pure ())
        let allMethods := resource.methods.getD []
        let methods ← liftE (filterNamespaceMethods ns allMethods)
        let supposedToBeEmpty := allMethods.isEmpty &&
          (match resource.resources with
           | none => true
           | some subs => subs.isEmpty)
        let wrote ←
          if !supposedToBeEmpty && methods.isEmpty then
            pure ([] : List String)
          else do
            twInterface resourceInterfaceName
              (do
                methodsLoop f parameters schemas methods
                match resource.resources with
                | some subs => childResourceProps subs
                | none => pure ())
              false
            pure [resourceName]
        let restNames ← restM
        pure (wrote ++ restNames))
      (pure [])
    pure (sortStr (uniqStr names))

/-- `this.seenSchemaRefs.has(name)`. -/
def hasSeen (name : String) : M Bool := fun st => (.ok (st.seen.contains name), st)

/-- `this.seenSchemaRefs.add(name)` (a JS `Set` ignores duplicates). -/
def addSeen (name : String) : M Unit := fun st =>
  (.ok (), { st with seen := if st.seen.contains name then st.seen else name :: st.seen })

/-- `this.seenSchemaRefs.delete(name)`. -/
def delSeen (name : String) : M Unit := fun st =>
  (.ok (), { st with seen := st.seen.erase name })

/-- The interpolation `${property.type}` of the unknown-scalar error
message (`undefined` prints as the word `undefined`). -/
def optShow : Option String → String
  | none => "undefined"
  | some s => s

/-- The request sort of the stub-value generator: the five mutually
recursive methods of `App` (`writePropertyValue`, `writeArray`,
`writeObject`, `writeSchemaRef`, `writeProperties`) become the five
constructors of one fuelled dispatcher `stubGo`, so the embedding is a
single structural recursion; the wrappers below restore the source
names.  Each `match` arm of `stubGo` transcribes the body of the
correspondingly named method of `src/app.ts`. -/
inductive StubReq where
  | propertyValue (property : JsonSchema)
  | array (items : JsonSchema)
  | object (object : JsonSchema)
  | schemaRef (schemaName : String)
  | properties (record : List (String × JsonSchema))

/-- The fuelled dispatcher of the stub-value generator (see `StubReq`). -/
def stubGo : Nat → RestDescriptionM → StubReq → M Unit
  | 0, _, _ => liftE (.error .outOfFuel)
  | f + 1, api, req =>
    match req with
    | .propertyValue property =>
      if property.type = some "number" ∨ property.type = some "integer" then iWrite "42"
      else if property.type = some "boolean" then iWrite "true"
      else if property.type = some "string" then iWrite "\"Test string\""
      else if property.type = some "array" then do
        let items ← liftE (checkExists property.items)
        stubGo f api (.array items)
      else if property.type = some "object" then stubGo f api (.object property)
      else if property.type = some "any" then iWrite "42"
      else throwT ("Unknown scalar type " ++ optShow property.type)
    | .array items => do
      let schemaName := items.ref
      let seenIt ← match schemaName with
        | some n => if n.isEmpty then pure false else hasSeen n
        | none => pure false
      if seenIt then iWrite "undefined"
      else
        twScope
          (do
            twNewLine ""
            match schemaName with
            | some n =>
              if n.isEmpty then stubGo f api (.propertyValue items)
              else stubGo f api (.schemaRef n)
            | none => stubGo f api (.propertyValue items))
          "[" "]"
    | .object object => do
      let schemaName := match object.additionalProperties with
        | some ap => ap.ref
        | none => none
      let seenIt ← match schemaName with
        | some n => if n.isEmpty then pure false else hasSeen n
        | none => pure false
      if seenIt then iWrite "undefined"
      else
        match object.properties with
        | some props => twScope (stubGo f api (.properties props)) "\x7b" "\x7d"
        | none =>
          match object.additionalProperties with
          | some ap =>
            twScope
              (do
                twNewLine "A: "
                match schemaName with
                | some n =>
                  if n.isEmpty then stubGo f api (.propertyValue ap)
                  else stubGo f api (.schemaRef n)
                | none => stubGo f api (.propertyValue ap))
              "\x7b" "\x7d"
          | none => stubGo f api (.propertyValue object)
    | .schemaRef schemaName => do
      let seenIt ← hasSeen schemaName
      if seenIt then iWrite "undefined"
      else do
        let schemas ← liftE (checkExists api.schemas)
        match lookupRec schemas schemaName with
        | none =>
          throwT ("Attempted to generate stub for unknown schema \x27" ++ schemaName ++ "\x27")
        | some schema => do
          addSeen schemaName
          stubGo f api (.object schema)
          delSeen schemaName
    | .properties record =>
      match record with
      | [] => pure ()
      | (name, parameter) :: rest => do
        twNewLine (formatPropertyName name ++ ": ")
        (if parameter.type = some "object" then stubGo f api (.object parameter)
         else if optStrTruthy parameter.ref then stubGo f api (.schemaRef (parameter.ref.getD ""))
         else stubGo f api (.propertyValue parameter))
        twEndLine ","
        stubGo f api (.properties rest)

/-- `App.writePropertyValue` of `src/app.ts`: the stub-literal switch on
the scalar kind, with the `Unknown scalar type` throw on the default
branch. -/
def writePropertyValueF (fuel : Nat) (api : RestDescriptionM) (property : JsonSchema) : M Unit :=
  stubGo fuel api (.propertyValue property)

/-- `App.writeArray` of `src/app.ts`. -/
def writeArrayF (fuel : Nat) (api : RestDescriptionM) (items : JsonSchema) : M Unit :=
  stubGo fuel api (.array items)

/-- `App.writeObject` of `src/app.ts`. -/
def writeObjectF (fuel : Nat) (api : RestDescriptionM) (object : JsonSchema) : M Unit :=
  stubGo fuel api (.object object)

/-- `App.writeSchemaRef` of `src/app.ts`: the guard against cyclic
references, the registry lookup with its explicit throw, and the
`add`/`writeObject`/`delete` sequence transcribed exactly as in the
source — with no protection of the `delete` against a throw from
`writeObject`. -/
def writeSchemaRefF (fuel : Nat) (api : RestDescriptionM) (schemaName : String) : M Unit :=
  stubGo fuel api (.schemaRef schemaName)

/-- `App.writeProperties` of `src/app.ts`. -/
def writePropertiesF (fuel : Nat) (api : RestDescriptionM)
    (record : List (String × JsonSchema)) : M Unit :=
  stubGo fuel api (.properties record)

/-- The array-suffixing operation of the specification (testable property
2): append `[]` to a flat token, wrap a nested rendering in a generic
`Array<...>`; errors pass through.  Compared against `getTypeF` below. -/
def arrayRendering : Except Err TypeRendering → Except Err TypeRendering
  | .ok (.flat s) => .ok (.flat (s ++ "[]"))
  | .ok (.nested child) =>
    .ok (.nested (do
      iWrite "Array<"
      child
      iWrite ">"))
  | .error e => .error e

/-- The `scalar(kind)` node of the specification data model. -/
def scalarSchema (kind : String) (repeated : Bool) : JsonSchema :=
  .mk (some kind) none none none none repeated false none

/-- The `array(item)` node of the specification data model. -/
def arraySchema (items : JsonSchema) : JsonSchema :=
  .mk (some "array") (some items) none none none false false none

/-- The `reference(name)` node of the specification data model. -/
def refNodeSchema (name : String) : JsonSchema :=
  .mk none none none none (some name) false false none

/-- `sub` occurs contiguously inside `big`. -/
def SubListOf (sub big : List Char) : Prop := ∃ pre post, big = pre ++ sub ++ post

/-- Executable substring test on character lists. -/
def containsL (sub : List Char) : List Char → Bool
  | [] => sub.isEmpty
  | c :: cs => sub.isPrefixOf (c :: cs) || containsL sub cs

/-- Executable substring test on strings. -/
def strContainsB (big sub : String) : Bool := containsL sub.data big.data

/-- A clean word of a comment text: nonempty and free of whitespace and
irregular-space code points (so trimming and space normalisation leave it
unchanged). -/
def cleanWord (w : List Char) : Bool :=
  !w.isEmpty && w.all fun c => !jsWs c && !isIrregularSpace c

/-- An `M Unit` computation that preserves the indent depth whenever it
returns normally. -/
def IndentPres (m : M Unit) : Prop :=
  ∀ st r st', m st = (.ok r, st') → st'.indent = st.indent

/-- An `M` computation that preserves the `seenSchemaRefs` set whenever
it returns normally. -/
def SeenPres {α : Type} (m : M α) : Prop :=
  ∀ st r st', m st = (.ok r, st') → st'.seen = st.seen

/-- The initial writer state used by the concrete runs below: empty
output, depth 0, empty seen-set, a 200-column limit and no banned types. -/
def st0 : WriterState := ⟨[], 0, [], 200, []⟩

/-- A body callback that aborts by throwing (for the scoped-emission
counterexample). -/
def throwingCallback : M Unit := fun st => (.error (.thrown "callback aborted"), st)

/-- A schema whose registry entry has no properties and no
additional-properties value type. -/
def emptyTargetSchema : JsonSchema := .mk none none none none none false false none

/-- A one-property schema whose property has an unknown scalar kind (the
stub-value generator throws on it). -/
def bogusPropSchema : JsonSchema :=
  .mk none none (some [("p", .mk (some "bogus") none none none none false false none)])
    none none false false none

/-- A one-property schema whose property is a well-known scalar. -/
def intPropSchema : JsonSchema :=
  .mk none none (some [("p", .mk (some "integer") none none none none false false none)])
    none none false false none

/-- Registry containing only the throwing schema `A`. -/
def apiBad : RestDescriptionM := ⟨some [("A", bogusPropSchema)]⟩

/-- Registry containing only the benign schema `A`. -/
def apiGood : RestDescriptionM := ⟨some [("A", intPropSchema)]⟩

/-- A resource with no methods and no nested resources. -/
def emptyResource : RestResource := .mk none none

/-- A method whose dotted identifier belongs to the namespace `other`. -/
def offNamespaceMethod : RestMethod := ⟨some "other.bar.get", none, none, none, none⟩

/-- A resource that has a method, but none in namespace `ns`. -/
def offNamespaceResource : RestResource := .mk none (some [("get", offNamespaceMethod)])

/-- The required string parameter `a` of `bodyMethod`. -/
def bodyParamSchema : JsonSchema := .mk (some "string") none none none none false true none

/-- The method of testable property 7: `ns.res.get` with one required
string parameter and a request-body reference to schema `Body`. -/
def bodyMethod : RestMethod :=
  ⟨some "ns.res.get", none, some [("a", bodyParamSchema)], some ⟨some "Body"⟩, none⟩

/-- The resource holding `bodyMethod` under the key `get`. -/
def bodyResource : RestResource := .mk none (some [("get", bodyMethod)])

/-- A method whose response references a schema that is absent from the
registry. -/
def missingResponseMethod : RestMethod := ⟨some "ns.res.get", none, none, none, some ⟨some "Missing"⟩⟩

/-- A method with no declared response. -/
def noResponseMethod : RestMethod := ⟨some "ns.res.get", none, none, none, none⟩

/-- Whether an `Except` result is an error. -/
def isErrE {α : Type} : Except Err α → Bool
  | .error _ => true
  | .ok _ => false

/-- The output of a run, joined into one string. -/
def joinedOutput (st : WriterState) : String := String.join st.output

/-- A schema with an explicitly empty (but present) properties record:
`writeObject` renders it as an empty brace literal. -/
def emptyPropsSchema : JsonSchema := .mk none none (some []) none none false false none

/-- Registry containing only the benign empty-object schema `A`. -/
def apiEmptyProps : RestDescriptionM := ⟨some [("A", emptyPropsSchema)]⟩

/-- A writer state one indent level deep (the depth at which the request
parameter object of a method overload is rendered inside an interface). -/
def stIn1 : WriterState := ⟨[], 1, [], 200, []⟩

/-- Evaluation rule of `bind` in `M`. -/
theorem M_bind_eq {α β : Type} (m : M α) (k : α → M β) (st : WriterState) :
    (m >>= k) st =
      match m st with
      | (.ok a, st₁) => k a st₁
      | (.error e, st₁) => (.error e, st₁) := rfl

/-- A string different from `""` is not `isEmpty`. -/
theorem isEmpty_false_of_ne (s : String) (h : s ≠ "") : s.isEmpty = false := by
  rw [Bool.eq_false_iff]
  intro hc
  exact h ((String.isEmpty_iff s).mp hc)

/-- C1: a reference node whose registry target has no named properties
and no additional-properties value type renders as the universal top type
token `any`, regardless of the reference's name. -/
theorem emptyRef_renders_top_type (f : Nat) (name : String)
    (reg : List (String × JsonSchema)) (target : JsonSchema)
    (hname : name ≠ "") (hlook : lookupRec reg name = some target)
    (hempty : isEmptySchema target = true) :
    getTypeF (f + 1) (refNodeSchema name) reg = .ok (.flat "any") := by
  have hne : name.isEmpty = false := isEmpty_false_of_ne name hname
  simp [getTypeF, refNodeSchema, JsonSchema.type, JsonSchema.properties,
    JsonSchema.additionalProperties, JsonSchema.ref, optStrTruthy, hne, hlook, hempty]

/-- Witness for C1 at the concrete reference `Foo` to an empty schema. -/
theorem emptyRef_renders_top_type_witness :
    getTypeF 1 (refNodeSchema "Foo") [("Foo", emptyTargetSchema)] = .ok (.flat "any") :=
  emptyRef_renders_top_type 0 "Foo" [("Foo", emptyTargetSchema)] emptyTargetSchema
    (by decide) rfl rfl

/-- Counterexample to C6: the scalar kind `frobnicate` is outside the
translation table, yet `getType` renders it unchanged instead of raising
the malformed-input error. -/
theorem unknown_scalar_kind_passes_through :
    getTypeF 1 (scalarSchema "frobnicate" false) [] = .ok (.flat "frobnicate") ∧
      isErrE (getTypeF 1 (scalarSchema "frobnicate" false) []) = false :=
  ⟨rfl, rfl⟩

/-- C6 (amended): every scalar kind other than `array` and the falsy
empty string renders through the fixed translation table
(`integer` to `number`, `object` to `any`, `any` to `any`, `string` to
`string`), with kinds outside the table passed through unchanged rather
than raising an error, and the repeated flag wraps the token as
`T | T[]`. -/
theorem scalar_translation_table (f : Nat) (reg : List (String × JsonSchema))
    (kind : String) (rep : Bool) (h1 : kind ≠ "array") (h2 : kind ≠ "") :
    getTypeF (f + 1) (scalarSchema kind rep) reg =
      .ok (.flat
        (let t := if kind = "integer" then "number"
          else if kind = "object" then "any"
          else if kind = "any" then "any"
          else if kind = "string" then "string"
          else kind
         if rep then t ++ " | " ++ t ++ "[]" else t)) := by
  have hne : kind.isEmpty = false := isEmpty_false_of_ne kind h2
  have hmain : getTypeF (f + 1) (scalarSchema kind rep) reg =
      .ok (.flat (scalarToken kind rep)) := by
    simp [getTypeF, scalarSchema, JsonSchema.type, JsonSchema.properties,
      JsonSchema.additionalProperties, JsonSchema.ref, JsonSchema.repeated,
      optStrTruthy, hne, h1]
  rw [hmain]
  have htok : scalarToken kind rep =
      (let t := if kind = "integer" then "number"
        else if kind = "object" then "any"
        else if kind = "any" then "any"
        else if kind = "string" then "string"
        else kind
       if rep then t ++ " | " ++ t ++ "[]" else t) := by
    by_cases hI : kind = "integer"
    · subst hI; cases rep <;> rfl
    · by_cases hO : kind = "object"
      · subst hO; cases rep <;> rfl
      · by_cases hA : kind = "any"
        · subst hA; cases rep <;> rfl
        · by_cases hS : kind = "string"
          · subst hS; cases rep <;> rfl
          · simp [scalarToken, typesMap, lookupRec, Ne.symm hI, Ne.symm hO, Ne.symm hA,
              Ne.symm hS, hI, hO, hA, hS]
  rw [htok]

/-- Witness for C6 (amended) at the repeated `integer` scalar. -/
theorem scalar_translation_table_witness :
    getTypeF 1 (scalarSchema "integer" true) [] = .ok (.flat "number | number[]") := by
  have h := scalar_translation_table 0 [] "integer" true (by decide) (by decide)
  simpa using h

/-- Counterexample to C7: a method whose response references the schema
`Missing`, absent from the (empty) registry, does not make translation
fail — `getMethodReturn` silently yields the empty-object
parameterisation. -/
theorem missing_response_schema_defaults_silently :
    getMethodReturn missingResponseMethod [] = .ok "Request<\x7b\x7d>" ∧
      isErrE (getMethodReturn missingResponseMethod []) = false :=
  ⟨rfl, rfl⟩

/-- C7 (amended): a method whose response refers by name to a schema
absent from the registry is rendered with the empty-object
parameterisation `wrapper<{}>` — exactly as a resolvable response schema
without properties — and no error is raised; the missing target is
defaulted, not fatal. -/
theorem missing_response_schema_empty_object_param (m : RestMethod)
    (reg : List (String × JsonSchema)) (resp : RefHolder) (rname : String)
    (h1 : m.response = some resp) (h2 : resp.ref = some rname)
    (h3 : lookupRec reg rname = none) :
    getMethodReturn m reg =
      .ok ((if (lookupRec reg "Request").isSome then "client.Request" else "Request") ++
        "<\x7b\x7d>") := by
  simp [getMethodReturn, h1, h2, h3, checkExists]

/-- Witness for C7 (amended) at the concrete method whose response
references the absent schema `Missing`. -/
theorem missing_response_schema_empty_object_param_witness :
    getMethodReturn missingResponseMethod [] =
      .ok ((if (lookupRec ([] : List (String × JsonSchema)) "Request").isSome then
        "client.Request" else "Request") ++ "<\x7b\x7d>") :=
  missing_response_schema_empty_object_param missingResponseMethod [] ⟨some "Missing"⟩
    "Missing" rfl rfl rfl

/-- C10: whatever the method looks like, a successful `getMethodReturn`
always has the shape `wrapper<parameter>`, and the wrapper is
`client.Request` exactly when the registry contains an entry named
`Request`, `Request` otherwise — uniformly across the three
parameterisation cases. -/
theorem method_return_wrapper_uniform (m : RestMethod)
    (reg : List (String × JsonSchema)) (r : String)
    (h : getMethodReturn m reg = .ok r) :
    ∃ p, r =
      (if (lookupRec reg "Request").isSome then "client.Request" else "Request") ++
        "<" ++ p ++ ">" := by
  have hvoid : ("<" : String) ++ ("void" ++ ">") = "<void>" := rfl
  have hobj : ("<" : String) ++ ("\x7b\x7d" ++ ">") = "<\x7b\x7d>" := rfl
  rcases hresp : m.response with _ | resp
  · simp only [getMethodReturn, hresp, Except.ok.injEq] at h
    refine ⟨"void", ?_⟩
    simp only [String.append_assoc]
    rw [hvoid]
    exact h.symm
  · rcases href : resp.ref with _ | rname
    · simp only [getMethodReturn, hresp, href, checkExists] at h
      exact absurd h (by simp)
    · rcases hlook : lookupRec reg rname with _ | schema
      · simp only [getMethodReturn, hresp, href, checkExists, hlook, Except.ok.injEq] at h
        refine ⟨"\x7b\x7d", ?_⟩
        simp only [String.append_assoc]
        rw [hobj]
        simpa [String.append_assoc] using h.symm
      · simp only [getMethodReturn, hresp, href, checkExists, hlook] at h
        by_cases hprops : propsIsEmpty schema.properties
        · rw [if_neg (by simp [hprops])] at h
          simp only [Except.ok.injEq] at h
          refine ⟨"\x7b\x7d", ?_⟩
          simp only [String.append_assoc]
          rw [hobj]
          simpa [String.append_assoc] using h.symm
        · rw [if_pos (by simp [hprops])] at h
          simp only [Except.ok.injEq] at h
          exact ⟨rname, by rw [← h]⟩

/-- Witness for C10 at a method with no declared response and the empty
registry. -/
theorem method_return_wrapper_uniform_witness :
    ∃ p, "Request<void>" =
      (if (lookupRec ([] : List (String × JsonSchema)) "Request").isSome then
        "client.Request" else "Request") ++ "<" ++ p ++ ">" :=
  method_return_wrapper_uniform noResponseMethod [] "Request<void>" rfl

/-- Auxiliary for C8: one unfolding of the array branch of `getType`
agrees with the specification's suffixing operation. -/
theorem getType_array_step (f : Nat) (n : JsonSchema)
    (reg : List (String × JsonSchema)) :
    getTypeF (f + 1) (arraySchema n) reg = arrayRendering (getTypeF f n reg) := by
  rcases h : getTypeF f n reg with e | tr
  · simp [getTypeF, arraySchema, JsonSchema.type, JsonSchema.items, checkExists,
      arrayRendering, h]
  · cases tr <;>
      simp [getTypeF, arraySchema, JsonSchema.type, JsonSchema.items, checkExists,
        arrayRendering, h]

/-- C8: rendering `array(n)` equals rendering `n` followed by array
suffixing — a flat token gets `[]` appended, a nested callback is wrapped
in a generic `Array<...>` — and consequently `array(array(n))` renders as
the doubly wrapped form. -/
theorem array_rendering_is_suffixing (f : Nat) (n : JsonSchema)
    (reg : List (String × JsonSchema)) :
    getTypeF (f + 1) (arraySchema n) reg = arrayRendering (getTypeF f n reg) ∧
      getTypeF (f + 2) (arraySchema (arraySchema n)) reg =
        arrayRendering (arrayRendering (getTypeF f n reg)) := by
  refine ⟨getType_array_step f n reg, ?_⟩
  rw [getType_array_step (f + 1) (arraySchema n) reg, getType_array_step f n reg]

/-- `IndentPres` for the always-normal identity-like callbacks used in
the witnesses (the pure unit computation). -/
theorem indentPres_pure : IndentPres (Pure.pure ()) := by
  intro st r st' h
  cases h
  rfl

/-- Counterexample to C3: a body callback that aborts by throwing leaves
the indent depth incremented after `braces`, `scope` and
`anonymousType` — the depth after the call differs from the depth before. -/
theorem scoped_emission_depth_not_restored_on_throw :
    (twBraces "interface X" throwingCallback st0).2.indent ≠ st0.indent ∧
      (twScope throwingCallback "\x7b" "\x7d" st0).2.indent ≠ st0.indent ∧
      (twAnonymousType throwingCallback st0).2.indent ≠ st0.indent :=
  ⟨by decide, by decide, by decide⟩

/-- A successful run of a bind decomposes into successful runs of its
two stages. -/
theorem M_bind_ok {α β : Type} {m : M α} {k : α → M β} {st st' : WriterState} {b : β}
    (h : (m >>= k) st = (.ok b, st')) :
    ∃ a st₁, m st = (.ok a, st₁) ∧ k a st₁ = (.ok b, st') := by
  rw [M_bind_eq] at h
  rcases hm : m st with ⟨r, st₁⟩
  rw [hm] at h
  cases r with
  | ok a => exact ⟨a, st₁, rfl, h⟩
  | error e => simp at h

/-- C3 (amended): for every body callback that itself preserves the
indent depth whenever it returns normally, a normally returning call of
`braces`, `scope` or `anonymousType` restores the depth to its value
before the call; a throwing body leaves the depth unrestored (see the
counterexample). -/
theorem scoped_emission_depth_restored_on_normal_return :
    (∀ (text : String) (ctx : M Unit) (st : WriterState) (r : Unit) (st' : WriterState),
      IndentPres ctx → twBraces text ctx st = (.ok r, st') → st'.indent = st.indent) ∧
    (∀ (ctx : M Unit) (startTag endTag : String) (st : WriterState) (r : Unit)
        (st' : WriterState),
      IndentPres ctx → twScope ctx startTag endTag st = (.ok r, st') →
        st'.indent = st.indent) ∧
    (∀ (ctx : M Unit) (st : WriterState) (r : Unit) (st' : WriterState),
      IndentPres ctx → twAnonymousType ctx st = (.ok r, st') → st'.indent = st.indent) := by
  refine ⟨?_, ?_, ?_⟩
  · intro text ctx st r st' hpres heq
    unfold twBraces at heq
    obtain ⟨a₁, st₁, h₁, heq⟩ := M_bind_ok heq
    obtain ⟨a₂, st₂, h₂, heq⟩ := M_bind_ok heq
    obtain ⟨a₃, st₃, h₃, heq⟩ := M_bind_ok heq
    obtain ⟨a₄, st₄, h₄, heq⟩ := M_bind_ok heq
    have e₁ : st.indent = st₁.indent := congrArg (fun p => p.2.indent) h₁
    have e₂ : st₁.indent + 1 = st₂.indent := congrArg (fun p => p.2.indent) h₂
    have e₃ : st₃.indent = st₂.indent := hpres st₂ a₃ st₃ h₃
    have e₄ : st₃.indent - 1 = st₄.indent := congrArg (fun p => p.2.indent) h₄
    have e₅ : st₄.indent = st'.indent := congrArg (fun p => p.2.indent) heq
    omega
  · intro ctx startTag endTag st r st' hpres heq
    unfold twScope at heq
    obtain ⟨a₁, st₁, h₁, heq⟩ := M_bind_ok heq
    obtain ⟨a₂, st₂, h₂, heq⟩ := M_bind_ok heq
    obtain ⟨a₃, st₃, h₃, heq⟩ := M_bind_ok heq
    obtain ⟨a₄, st₄, h₄, heq⟩ := M_bind_ok heq
    obtain ⟨a₅, st₅, h₅, heq⟩ := M_bind_ok heq
    have e₁ : st.indent = st₁.indent := congrArg (fun p => p.2.indent) h₁
    have e₂ : st₁.indent = st₂.indent := congrArg (fun p => p.2.indent) h₂
    have e₃ : st₂.indent + 1 = st₃.indent := congrArg (fun p => p.2.indent) h₃
    have e₄ : st₄.indent = st₃.indent := hpres st₃ a₄ st₄ h₄
    have e₅ : st₄.indent - 1 = st₅.indent := congrArg (fun p => p.2.indent) h₅
    have e₆ : st₅.indent = st'.indent := congrArg (fun p => p.2.indent) heq
    omega
  · intro ctx st r st' hpres heq
    unfold twAnonymousType at heq
    obtain ⟨a₁, st₁, h₁, heq⟩ := M_bind_ok heq
    obtain ⟨a₂, st₂, h₂, heq⟩ := M_bind_ok heq
    obtain ⟨a₃, st₃, h₃, heq⟩ := M_bind_ok heq
    obtain ⟨a₄, st₄, h₄, heq⟩ := M_bind_ok heq
    have e₁ : st.indent = st₁.indent := congrArg (fun p => p.2.indent) h₁
    have e₂ : st₁.indent + 1 = st₂.indent := congrArg (fun p => p.2.indent) h₂
    have e₃ : st₃.indent = st₂.indent := hpres st₂ a₃ st₃ h₃
    have e₄ : st₃.indent - 1 = st₄.indent := congrArg (fun p => p.2.indent) h₄
    have e₅ : st₄.indent = st'.indent := congrArg (fun p => p.2.indent) heq
    omega

/-- Witness for C3 (amended): the three scoped-emission operations with a
normally returning, depth-preserving body restore the depth at a concrete
state. -/
theorem scoped_emission_depth_restored_witness :
    (twBraces "interface X" (Pure.pure ()) st0).2.indent = st0.indent ∧
      (twScope (Pure.pure ()) "\x7b" "\x7d" st0).2.indent = st0.indent ∧
      (twAnonymousType (Pure.pure ()) st0).2.indent = st0.indent := by
  refine ⟨?_, ?_, ?_⟩
  · exact scoped_emission_depth_restored_on_normal_return.1 "interface X" (Pure.pure ())
      st0 () (twBraces "interface X" (Pure.pure ()) st0).2 indentPres_pure rfl
  · exact scoped_emission_depth_restored_on_normal_return.2.1 (Pure.pure ()) "\x7b" "\x7d"
      st0 () (twScope (Pure.pure ()) "\x7b" "\x7d" st0).2 indentPres_pure rfl
  · exact scoped_emission_depth_restored_on_normal_return.2.2 (Pure.pure ())
      st0 () (twAnonymousType (Pure.pure ()) st0).2 indentPres_pure rfl

/-- Counterexample to C4: the resource `foo` with zero methods and zero
nested resources renders as an empty interface, but no lint-suppression
directive precedes it — the emitted chunks contain no `tslint` directive
at all (`interface` is called without the `emptyInterface` flag at
`src/app.ts:584`). -/
theorem empty_resource_interface_lacks_suppression :
    (writeResourcesF 3 [("foo", emptyResource)] [] [] "ns" st0).2.output =
      ["interface FooResource \x7b\n", "\x7d\n"] ∧
      ((writeResourcesF 3 [("foo", emptyResource)] [] [] "ns" st0).2.output.any
        fun c => strContainsB c "tslint") = false :=
  ⟨rfl, rfl⟩

/-- C4 (amended): every resource node with zero methods and zero nested
resources (each field absent or present but empty) renders as an empty
interface whose body is empty; the empty-interface suppression directive
is never requested for it, and the only directive that may precede it is
the interface-name suppression, emitted exactly when the derived resource
type name starts with a capital `I` followed by another capital; every
resource node without nested resources whose methods (at least one) all
have dotted identifiers outside the current namespace is omitted from
that namespace pass entirely — nothing is written and no name is
returned. -/
theorem resource_emptiness_rendering (f : Nat) (st : WriterState)
    (params reg : List (String × JsonSchema)) (ns rname : String)
    (rr : Option (List (String × RestResource)))
    (mm : Option (List (String × RestMethod))) (offMethods : List (String × RestMethod))
    (hrs : rr = none ∨ rr = some []) (hms : mm = none ∨ mm = some [])
    (hoff : filterNamespaceMethods ns offMethods = Except.ok [])
    (hne : offMethods ≠ []) :
    writeResourcesF (f + 2) [(rname, RestResource.mk rr mm)] params reg ns st =
      (.ok [rname],
        { st with output := st.output ++
            (if hasPrefixI (getResourceTypeName rname) then
              [tabs st.indent ++ ("// tslint:disable-next-line:interface-name" ++ nl)]
            else []) ++
            [tabs st.indent ++ ("interface " ++ getResourceTypeName rname ++ " \x7b" ++ nl)] ++
            [tabs st.indent ++ ("\x7d" ++ nl)] }) ∧
      writeResourcesF (f + 2) [(rname, RestResource.mk none (some offMethods))] params reg ns st =
        (.ok [], st) := by
  constructor
  · rcases hrs with rfl | rfl <;> rcases hms with rfl | rfl <;>
      cases hb : hasPrefixI (getResourceTypeName rname)
    all_goals
      simp only [writeResourcesF, twInterface, RestResource.resources, RestResource.methods,
        Option.getD, filterNamespaceMethods, List.foldr_cons, List.foldr_nil, hb]
    any_goals (conv_rhs => rw [if_neg (show ¬(false = true) by decide), List.append_nil])
    all_goals rfl
  · rcases offMethods with _ | ⟨m0, mrest⟩
    · exact absurd rfl hne
    · simp only [writeResourcesF, RestResource.resources, RestResource.methods,
        Option.getD, List.foldr_cons, List.foldr_nil, hoff]
      rfl

/-- Witness for C4 (amended) at the empty resource `foo` (whose derived
type name `FooResource` does not match the I-heuristic) and at a resource
holding only the method `other.bar.get`, outside namespace `ns`. -/
theorem resource_emptiness_rendering_witness :
    writeResourcesF 3 [("foo", RestResource.mk none none)] [] [] "ns" st0 =
      (.ok ["foo"],
        { st0 with output := st0.output ++
            (if hasPrefixI (getResourceTypeName "foo") then
              [tabs st0.indent ++ ("// tslint:disable-next-line:interface-name" ++ nl)]
            else []) ++
            [tabs st0.indent ++ ("interface " ++ getResourceTypeName "foo" ++ " \x7b" ++ nl)] ++
            [tabs st0.indent ++ ("\x7d" ++ nl)] }) ∧
      writeResourcesF 3 [("foo", RestResource.mk none (some [("get", offNamespaceMethod)]))]
          [] [] "ns" st0 = (.ok [], st0) :=
  resource_emptiness_rendering 1 st0 [] [] "ns" "foo" none none
    [("get", offNamespaceMethod)] (Or.inl rfl) (Or.inl rfl) rfl (List.cons_ne_nil _ _)

/-- Counterexample to C5: in the one-argument overload's request object,
the request-body type is merged under key `resource` as a required
property (`resource: Body;`), not an optional one — the rendered chunks
never contain `resource?`. -/
theorem request_body_resource_property_is_required :
    (createRequestParameterWriterCallback 2 [] [] (some "Body") stIn1).2.output =
      ["\x7b", "\n", "        /** Request body */\n", "        resource: Body;\n",
       "    \x7d"] ∧
      ((createRequestParameterWriterCallback 2 [] [] (some "Body") stIn1).2.output.any
        fun c => strContainsB c "resource?") = false :=
  ⟨rfl, rfl⟩

/-- C5 (amended): every method carrying a request-body reference whose
merged parameter set lacks a `resource` key makes the walker emit exactly
two call overloads — first the one-argument overload whose single
`request` parameter is the merged request object extended with the
request-body type, then the two-argument overload
`(request, body: RequestBodyType)` — and the request object of the
one-argument overload is the merged parameters followed by the
`Request body` comment and the `resource` property of the request-body
type, emitted as required. -/
theorem request_body_two_overloads (f : Nat) (params reg : List (String × JsonSchema))
    (methodName nm rname ret : String) (m : RestMethod) (req : RefHolder)
    (rest : List (String × RestMethod))
    (hreq : m.request = some req) (href : req.ref = some rname) (hrname : rname ≠ "")
    (hres : lookupRec (sortByKey (mergeRecords params (m.parameters.getD []))) "resource" =
      none)
    (hn : getName (some methodName) = some nm)
    (hret : getMethodReturn m reg = Except.ok ret) :
    methodsLoop f params reg ((methodName, m) :: rest) =
      ((if optStrTruthy m.description then
          twComment (formatComment (m.description.getD "")) else pure ()) >>= fun _ =>
       (twMethod (formatPropertyName nm)
          [⟨"request", .nested (createRequestParameterWriterCallback f
              (sortByKey (mergeRecords params (m.parameters.getD []))) reg (some rname)),
            true⟩]
          ret false) >>= fun _ =>
       (twMethod (formatPropertyName nm)
          [⟨"request", .nested (createRequestParameterWriterCallback f
              (sortByKey (mergeRecords params (m.parameters.getD []))) reg none), true⟩,
           ⟨"body", .flat rname, true⟩]
          ret false) >>= fun _ =>
       methodsLoop f params reg rest) ∧
      createRequestParameterWriterCallback f
          (sortByKey (mergeRecords params (m.parameters.getD []))) reg (some rname) =
        twAnonymousType
          (rpwcParamsLoop f reg (sortByKey (mergeRecords params (m.parameters.getD []))) >>=
            fun _ => twComment "Request body" >>= fun _ =>
              twProperty "resource" (.flat rname) true) := by
  have hrt : optStrTruthy (some rname) = true := by
    simp [optStrTruthy, isEmpty_false_of_ne rname hrname]
  constructor
  · simp only [methodsLoop, hreq, href, hres, hn, hret, hrt]
    rfl
  · simp only [createRequestParameterWriterCallback, hrt]
    rfl

/-- Witness for C5 (amended) at `bodyMethod` (`ns.res.get`, one required
string parameter `a`, request body `Body`) against the empty registry. -/
theorem request_body_two_overloads_witness :
    methodsLoop 4 [] [] [("get", bodyMethod)] =
      ((if optStrTruthy bodyMethod.description then
          twComment (formatComment (bodyMethod.description.getD "")) else pure ()) >>= fun _ =>
       (twMethod (formatPropertyName "get")
          [⟨"request", .nested (createRequestParameterWriterCallback 4
              (sortByKey (mergeRecords [] (bodyMethod.parameters.getD []))) [] (some "Body")),
            true⟩]
          "Request<void>" false) >>= fun _ =>
       (twMethod (formatPropertyName "get")
          [⟨"request", .nested (createRequestParameterWriterCallback 4
              (sortByKey (mergeRecords [] (bodyMethod.parameters.getD []))) [] none), true⟩,
           ⟨"body", .flat "Body", true⟩]
          "Request<void>" false) >>= fun _ =>
       methodsLoop 4 [] [] []) ∧
      createRequestParameterWriterCallback 4
          (sortByKey (mergeRecords [] (bodyMethod.parameters.getD []))) [] (some "Body") =
        twAnonymousType
          (rpwcParamsLoop 4 [] (sortByKey (mergeRecords [] (bodyMethod.parameters.getD []))) >>=
            fun _ => twComment "Request body" >>= fun _ =>
              twProperty "resource" (.flat "Body") true) :=
  request_body_two_overloads 4 [] [] "get" "get" "Body" "Request<void>" bodyMethod
    ⟨some "Body"⟩ [] rfl rfl (by decide) rfl rfl rfl

/-- Counterexample to C2: expanding the reference `A` whose target throws
(a property of unknown scalar kind) leaves `A` in the currently-expanding
set after the erroneous call — the `delete` of `writeSchemaRef` is not
protected against a throw from `writeObject`, so the set does not equal
its value before the call. -/
theorem writeSchemaRef_seen_leaks_on_error :
    (writeSchemaRefF 9 apiBad "A" st0).1 = .error (.thrown "Unknown scalar type bogus") ∧
      (writeSchemaRefF 9 apiBad "A" st0).2.seen = ["A"] ∧ st0.seen = [] :=
  ⟨rfl, rfl, rfl⟩

/-- A computation whose final state always keeps the seen-set of its
input state preserves the seen-set. -/
theorem seenPres_of_preserve {α : Type} {m : M α}
    (hm : ∀ st, ((m st).2).seen = st.seen) : SeenPres m := by
  intro st r st' h
  have hs : (m st).2.seen = st'.seen := congrArg (fun p => p.2.seen) h
  rw [hm st] at hs
  exact hs.symm

/-- A throwing computation vacuously preserves the seen-set. -/
theorem seenPres_throwT {α : Type} (msg : String) : SeenPres (throwT msg : M α) := by
  intro st r st' h
  have hf := congrArg Prod.fst h
  simp [throwT, liftE] at hf

/-- `SeenPres` composes over `bind`. -/
theorem seenPres_bind {α β : Type} {m : M α} {k : α → M β}
    (hm : SeenPres m) (hk : ∀ a, SeenPres (k a)) : SeenPres (m >>= k) := by
  intro st r st' h
  obtain ⟨a, st₁, h₁, h₂⟩ := M_bind_ok h
  rw [hk a st₁ r st' h₂, hm st a st₁ h₁]

/-- `SeenPres` distributes over a conditional. -/
theorem seenPres_ite {α : Type} (c : Prop) [Decidable c] {m₁ m₂ : M α}
    (h₁ : SeenPres m₁) (h₂ : SeenPres m₂) : SeenPres (if c then m₁ else m₂) := by
  by_cases hc : c
  · rw [if_pos hc]; exact h₁
  · rw [if_neg hc]; exact h₂

/-- `scope` preserves the seen-set when its body does. -/
theorem seenPres_twScope {ctx : M Unit} (h : SeenPres ctx) (s e : String) :
    SeenPres (twScope ctx s e) := by
  unfold twScope
  exact seenPres_bind (seenPres_of_preserve fun _ => rfl) fun _ =>
    seenPres_bind (seenPres_of_preserve fun _ => rfl) fun _ =>
      seenPres_bind (seenPres_of_preserve fun _ => rfl) fun _ =>
        seenPres_bind h fun _ =>
          seenPres_bind (seenPres_of_preserve fun _ => rfl) fun _ =>
            seenPres_of_preserve fun _ => rfl

/-- Every normally returning run of the stub-value generator leaves the
currently-expanding set exactly as it found it: the reference guard
pushes a name before recursing into the target and pops it afterwards,
and on the success path the pop always balances the push. -/
theorem stubGo_seenPres : ∀ (f : Nat) (api : RestDescriptionM) (req : StubReq),
    SeenPres (stubGo f api req) := by
  intro f
  induction f with
  | zero =>
    intro api req st r st' h
    have hf := congrArg Prod.fst h
    simp [stubGo, liftE] at hf
  | succ f ih =>
    intro api req
    match req with
    | .propertyValue property =>
      simp only [stubGo]
      refine seenPres_ite _ (seenPres_of_preserve fun _ => rfl) ?_
      refine seenPres_ite _ (seenPres_of_preserve fun _ => rfl) ?_
      refine seenPres_ite _ (seenPres_of_preserve fun _ => rfl) ?_
      refine seenPres_ite _ ?_ ?_
      · exact seenPres_bind (seenPres_of_preserve fun _ => rfl) fun items =>
          ih api (.array items)
      refine seenPres_ite _ (ih api (.object property)) ?_
      refine seenPres_ite _ (seenPres_of_preserve fun _ => rfl) ?_
      exact seenPres_throwT _
    | .array items =>
      simp only [stubGo]
      rcases items.ref with _ | n
      · dsimp only
        refine seenPres_bind (seenPres_of_preserve fun _ => rfl) fun y => ?_
        refine seenPres_ite _ (seenPres_of_preserve fun _ => rfl) ?_
        refine seenPres_twScope ?_ "[" "]"
        exact seenPres_bind (seenPres_of_preserve fun _ => rfl) fun _ =>
          ih api (.propertyValue items)
      · dsimp only
        refine seenPres_ite _ ?_ ?_
        · refine seenPres_bind (seenPres_of_preserve fun _ => rfl) fun y => ?_
          refine seenPres_ite _ (seenPres_of_preserve fun _ => rfl) ?_
          refine seenPres_twScope ?_ "[" "]"
          refine seenPres_bind (seenPres_of_preserve fun _ => rfl) fun _ => ?_
          exact seenPres_ite _ (ih api (.propertyValue items)) (ih api (.schemaRef n))
        · refine seenPres_bind (seenPres_of_preserve fun _ => rfl) fun y => ?_
          refine seenPres_ite _ (seenPres_of_preserve fun _ => rfl) ?_
          refine seenPres_twScope ?_ "[" "]"
          refine seenPres_bind (seenPres_of_preserve fun _ => rfl) fun _ => ?_
          exact seenPres_ite _ (ih api (.propertyValue items)) (ih api (.schemaRef n))
    | .object object =>
      simp only [stubGo]
      rcases object.additionalProperties with _ | ap
      · dsimp only
        refine seenPres_bind (seenPres_of_preserve fun _ => rfl) fun y => ?_
        refine seenPres_ite _ (seenPres_of_preserve fun _ => rfl) ?_
        rcases object.properties with _ | props
        · exact ih api (.propertyValue object)
        · exact seenPres_twScope (ih api (.properties props)) "\x7b" "\x7d"
      · dsimp only
        rcases ap.ref with _ | n
        · dsimp only
          refine seenPres_bind (seenPres_of_preserve fun _ => rfl) fun y => ?_
          refine seenPres_ite _ (seenPres_of_preserve fun _ => rfl) ?_
          rcases object.properties with _ | props
          · refine seenPres_twScope ?_ "\x7b" "\x7d"
            exact seenPres_bind (seenPres_of_preserve fun _ => rfl) fun _ =>
              ih api (.propertyValue ap)
          · exact seenPres_twScope (ih api (.properties props)) "\x7b" "\x7d"
        · dsimp only
          refine seenPres_ite _ ?_ ?_
          · refine seenPres_bind (seenPres_of_preserve fun _ => rfl) fun y => ?_
            refine seenPres_ite _ (seenPres_of_preserve fun _ => rfl) ?_
            rcases object.properties with _ | props
            · refine seenPres_twScope ?_ "\x7b" "\x7d"
              refine seenPres_bind (seenPres_of_preserve fun _ => rfl) fun _ => ?_
              exact seenPres_ite _ (ih api (.propertyValue ap)) (ih api (.schemaRef n))
            · exact seenPres_twScope (ih api (.properties props)) "\x7b" "\x7d"
          · refine seenPres_bind (seenPres_of_preserve fun _ => rfl) fun y => ?_
            refine seenPres_ite _ (seenPres_of_preserve fun _ => rfl) ?_
            rcases object.properties with _ | props
            · refine seenPres_twScope ?_ "\x7b" "\x7d"
              refine seenPres_bind (seenPres_of_preserve fun _ => rfl) fun _ => ?_
              exact seenPres_ite _ (ih api (.propertyValue ap)) (ih api (.schemaRef n))
            · exact seenPres_twScope (ih api (.properties props)) "\x7b" "\x7d"
    | .schemaRef schemaName =>
      intro st r st' h
      simp only [stubGo] at h
      obtain ⟨seenIt, st₁, h₁, h⟩ := M_bind_ok h
      have hb : st.seen.contains schemaName = seenIt := Except.ok.inj (congrArg Prod.fst h₁)
      have hst : st = st₁ := congrArg Prod.snd h₁
      subst hst
      by_cases hc : seenIt = true
      · rw [hc, if_pos rfl] at h
        exact (congrArg (fun p => p.2.seen) h).symm
      · rw [if_neg hc] at h
        obtain ⟨schemas, st₂, h₂, h⟩ := M_bind_ok h
        have hst₂ : st = st₂ := congrArg Prod.snd h₂
        subst hst₂
        rcases hlook : lookupRec schemas schemaName with _ | schema
        · rw [hlook] at h
          have hf := congrArg Prod.fst h
          simp [throwT, liftE] at hf
        · rw [hlook] at h
          obtain ⟨a₃, st₃, h₃, h⟩ := M_bind_ok h
          obtain ⟨a₄, st₄, h₄, h⟩ := M_bind_ok h
          have hcontains : st.seen.contains schemaName = false := by
            rw [hb]
            exact Bool.eq_false_iff.mpr hc
          have e₃ : st₃.seen = schemaName :: st.seen := by
            have hs := congrArg (fun p => p.2.seen) h₃
            simp only [addSeen, hcontains] at hs
            exact hs.symm
          have e₄ : st₄.seen = st₃.seen := ih api (.object schema) st₃ a₄ st₄ h₄
          have e₅ : st'.seen = st₄.seen.erase schemaName :=
            (congrArg (fun p => p.2.seen) h).symm
          rw [e₅, e₄, e₃, List.erase_cons_head]
    | .properties record =>
      match record with
      | [] =>
        simp only [stubGo]
        exact seenPres_of_preserve fun _ => rfl
      | (name, parameter) :: rest =>
        simp only [stubGo]
        refine seenPres_bind (seenPres_of_preserve fun _ => rfl) fun _ => ?_
        refine seenPres_bind ?_ fun _ => ?_
        · refine seenPres_ite _ (ih api (.object parameter)) ?_
          exact seenPres_ite _ (ih api (.schemaRef (parameter.ref.getD "")))
            (ih api (.propertyValue parameter))
        refine seenPres_bind (seenPres_of_preserve fun _ => rfl) fun _ => ?_
        exact ih api (.properties rest)

/-- C2 (amended): a normally returning `writeSchemaRef` restores the
currently-expanding set to its value before the call (the name is pushed
before recursing and popped afterwards); when the recursive call throws,
the pop is skipped and the name remains in the set (see the
counterexample), the error propagating up instead. -/
theorem writeSchemaRef_seen_restored_on_success (f : Nat) (api : RestDescriptionM)
    (name : String) (st : WriterState) (r : Unit) (st' : WriterState)
    (h : writeSchemaRefF f api name st = (.ok r, st')) :
    st'.seen = st.seen :=
  stubGo_seenPres f api (.schemaRef name) st r st' h

/-- Witness for C2 (amended): a successful expansion of the benign
schema `A` leaves the (empty) currently-expanding set unchanged. -/
theorem writeSchemaRef_seen_restored_witness :
    (writeSchemaRefF 9 apiEmptyProps "A" st0).2.seen = st0.seen :=
  writeSchemaRef_seen_restored_on_success 9 apiEmptyProps "A" st0 ()
    (writeSchemaRefF 9 apiEmptyProps "A" st0).2 rfl

/-- `split` never returns an empty list of pieces. -/
theorem splitOnChar_ne_nil (sep : Char) (l : List Char) : splitOnChar sep l ≠ [] := by
  cases l with
  | nil => simp [splitOnChar]
  | cons c cs =>
    simp only [splitOnChar]
    by_cases hc : c = sep
    · simp [hc]
    · simp only [hc, if_false]
      rcases splitOnChar sep cs with _ | ⟨h, t⟩ <;> simp

/-- Every piece of a split is at most as long as the split input. -/
theorem length_le_of_mem_splitOnChar (sep : Char) :
    ∀ (l w : List Char), w ∈ splitOnChar sep l → w.length ≤ l.length := by
  intro l
  induction l with
  | nil =>
    intro w hw
    simp only [splitOnChar, List.mem_singleton] at hw
    simp [hw]
  | cons c cs ih =>
    intro w hw
    have heq : splitOnChar sep (c :: cs) =
        if c = sep then [] :: splitOnChar sep cs
        else match splitOnChar sep cs with
          | [] => [[c]]
          | h :: t => (c :: h) :: t := rfl
    rw [heq] at hw
    by_cases hc : c = sep
    · rw [if_pos hc] at hw
      rcases List.mem_cons.mp hw with hw | hw
      · simp [hw]
      · exact le_trans (ih w hw) (by simp)
    · rw [if_neg hc] at hw
      rcases hsp : splitOnChar sep cs with _ | ⟨h, t⟩
      · exact absurd hsp (splitOnChar_ne_nil sep cs)
      · rw [hsp] at hw
        rcases List.mem_cons.mp hw with hw | hw
        · subst hw
          have hh : h ∈ splitOnChar sep cs := by rw [hsp]; simp
          have := ih h hh
          simp only [List.length_cons]
          omega
        · have hht : w ∈ splitOnChar sep cs := by rw [hsp]; simp [hw]
          exact le_trans (ih w hht) (by simp)

/-- A piece of a split of the empty input is empty. -/
theorem eq_nil_of_mem_splitOnChar_nil (sep : Char) (w : List Char)
    (hw : w ∈ splitOnChar sep []) : w = [] := by
  simpa [splitOnChar] using hw

/-- Everything already pushed stays in the result of the greedy wrap. -/
theorem wrapGo_acc_mem (b : Int) :
    ∀ (ws acc : List (List Char)) (cur x : List Char),
      x ∈ acc → x ∈ wrapGo b ws acc cur := by
  intro ws
  induction ws with
  | nil =>
    intro acc cur x hx
    simp [wrapGo, hx]
  | cons w rest ih =>
    intro acc cur x hx
    simp only [wrapGo]
    by_cases h1 : b < (cur.length : Int) + 1 + (w.length : Int)
    · rw [if_pos h1]
      exact ih (acc ++ [cur]) w x (by simp [hx])
    · rw [if_neg h1]
      by_cases h2 : cur.isEmpty
      · rw [if_pos h2]; exact ih acc w x hx
      · rw [if_neg h2]; exact ih acc (cur ++ ' ' :: w) x hx

/-- A line under construction that is already longer than the budget ends
up in the result of the greedy wrap (every following word overflows). -/
theorem wrapGo_cur_mem_of_long (b : Int) :
    ∀ (ws acc : List (List Char)) (cur : List Char),
      b < (cur.length : Int) → cur ∈ wrapGo b ws acc cur := by
  intro ws
  induction ws with
  | nil =>
    intro acc cur hcur
    simp [wrapGo]
  | cons w rest ih =>
    intro acc cur hcur
    simp only [wrapGo]
    have h1 : b < (cur.length : Int) + 1 + (w.length : Int) := by
      have h0 : (0 : Int) ≤ (w.length : Int) := Int.ofNat_nonneg _
      omega
    rw [if_pos h1]
    exact wrapGo_acc_mem b rest (acc ++ [cur]) w cur (by simp)

/-- A word longer than the budget is never split: it lands in the result
of the greedy wrap as an element of its own. -/
theorem wrapGo_mem_of_long_word (b : Int) :
    ∀ (ws acc : List (List Char)) (cur w : List Char),
      w ∈ ws → b < (w.length : Int) → w ∈ wrapGo b ws acc cur := by
  intro ws
  induction ws with
  | nil =>
    intro acc cur w hw
    cases hw
  | cons v rest ih =>
    intro acc cur w hw hlong
    rcases List.mem_cons.mp hw with hw | hw
    · subst hw
      simp only [wrapGo]
      have h1 : b < (cur.length : Int) + 1 + (w.length : Int) := by
        have h0 : (0 : Int) ≤ (cur.length : Int) := Int.ofNat_nonneg _
        omega
      rw [if_pos h1]
      exact wrapGo_cur_mem_of_long b rest (acc ++ [cur]) w hlong
    · simp only [wrapGo]
      by_cases h1 : b < (cur.length : Int) + 1 + (v.length : Int)
      · rw [if_pos h1]; exact ih (acc ++ [cur]) v w hw hlong
      · rw [if_neg h1]
        by_cases h2 : cur.isEmpty
        · rw [if_pos h2]; exact ih acc v w hw hlong
        · rw [if_neg h2]; exact ih acc (cur ++ ' ' :: v) w hw hlong

/-- When every word fits the budget, every line produced by the greedy
wrap fits the budget. -/
theorem wrapGo_bounded (b : Int) :
    ∀ (ws acc : List (List Char)) (cur : List Char),
      (∀ w ∈ ws, (w.length : Int) ≤ b) → (∀ l ∈ acc, (l.length : Int) ≤ b) →
      (cur.length : Int) ≤ b → ∀ l ∈ wrapGo b ws acc cur, (l.length : Int) ≤ b := by
  intro ws
  induction ws with
  | nil =>
    intro acc cur hws hacc hcur l hl
    simp only [wrapGo, List.mem_append, List.mem_singleton] at hl
    rcases hl with hl | hl
    · exact hacc l hl
    · subst hl; exact hcur
  | cons w rest ih =>
    intro acc cur hws hacc hcur l hl
    simp only [wrapGo] at hl
    have hwb : (w.length : Int) ≤ b := hws w (by simp)
    have hrest : ∀ v ∈ rest, (v.length : Int) ≤ b := fun v hv => hws v (by simp [hv])
    by_cases h1 : b < (cur.length : Int) + 1 + (w.length : Int)
    · rw [if_pos h1] at hl
      refine ih (acc ++ [cur]) w hrest ?_ hwb l hl
      intro x hx
      rcases List.mem_append.mp hx with hx | hx
      · exact hacc x hx
      · rw [List.mem_singleton] at hx; subst hx; exact hcur
    · rw [if_neg h1] at hl
      by_cases h2 : cur.isEmpty
      · rw [if_pos h2] at hl
        exact ih acc w hrest hacc hwb l hl
      · rw [if_neg h2] at hl
        refine ih acc (cur ++ ' ' :: w) hrest hacc ?_ l hl
        have hlen : ((cur ++ ' ' :: w).length : Int) =
            (cur.length : Int) + 1 + (w.length : Int) := by
          push_cast [List.length_append, List.length_cons]
          ring
        omega

/-- `dropWhile` is the identity when no element satisfies the predicate. -/
theorem dropWhile_eq_self_of_all {p : Char → Bool} (l : List Char)
    (h : ∀ c ∈ l, p c = false) : l.dropWhile p = l := by
  cases l with
  | nil => rfl
  | cons c cs => simp [List.dropWhile_cons, h c (by simp)]

/-- `trimL` is the identity on a list free of JS whitespace. -/
theorem trimL_eq_self (w : List Char) (h : ∀ c ∈ w, jsWs c = false) : trimL w = w := by
  unfold trimL
  rw [dropWhile_eq_self_of_all w h]
  rw [dropWhile_eq_self_of_all w.reverse (fun c hc => h c (List.mem_reverse.mp hc))]
  exact List.reverse_reverse w

/-- The irregular-space normalisation map is the identity on a list free
of irregular-space code points. -/
theorem map_norm_eq_self (w : List Char) (h : ∀ c ∈ w, isIrregularSpace c = false) :
    (w.map fun c => if isIrregularSpace c then ' ' else c) = w := by
  induction w with
  | nil => rfl
  | cons c cs ih =>
    have hc : isIrregularSpace c = false := h c (by simp)
    simp [hc, ih (fun d hd => h d (by simp [hd]))]

/-- Unpacking the executable `cleanWord` predicate. -/
theorem cleanWord_props (w : List Char) (h : cleanWord w = true) :
    w ≠ [] ∧ (∀ c ∈ w, jsWs c = false) ∧ (∀ c ∈ w, isIrregularSpace c = false) := by
  unfold cleanWord at h
  simp only [Bool.and_eq_true] at h
  obtain ⟨h1, h2⟩ := h
  refine ⟨?_, ?_, ?_⟩
  · intro hn; subst hn; simp at h1
  · intro c hc
    have hx := List.all_eq_true.mp h2 c hc
    simp only [Bool.and_eq_true] at hx
    simpa using hx.1
  · intro c hc
    have hx := List.all_eq_true.mp h2 c hc
    simp only [Bool.and_eq_true] at hx
    simpa using hx.2

/-- `dropWhile` never lengthens a list. -/
theorem length_dropWhile_le (p : Char → Bool) :
    ∀ l : List Char, (l.dropWhile p).length ≤ l.length := by
  intro l
  induction l with
  | nil => exact le_refl _
  | cons c cs ih =>
    rw [List.dropWhile_cons]
    by_cases hc : p c = true
    · rw [if_pos hc]; exact le_trans ih (by simp)
    · rw [if_neg hc]

/-- `trimL` never lengthens a list. -/
theorem trimL_length_le (l : List Char) : (trimL l).length ≤ l.length := by
  have h1 : ((l.dropWhile jsWs).reverse.dropWhile jsWs).length ≤
      (l.dropWhile jsWs).reverse.length := length_dropWhile_le _ _
  have h2 : (l.dropWhile jsWs).length ≤ l.length := length_dropWhile_le _ _
  simp only [trimL, List.length_reverse]
  simp only [List.length_reverse] at h1
  omega

/-- The `foldl max` underlying `maxLenList` only grows from its seed. -/
theorem foldl_max_seed_le :
    ∀ (ls : List (List Char)) (seed : Int),
      seed ≤ ls.foldl (fun a l => max a (l.length : Int)) seed := by
  intro ls
  induction ls with
  | nil => intro seed; exact le_refl _
  | cons v t ih =>
    intro seed
    exact le_trans (le_max_left seed (v.length : Int)) (ih (max seed (v.length : Int)))

/-- Every member's length bounds `maxLenList` from below. -/
theorem le_maxLenList_of_mem :
    ∀ (ls : List (List Char)) (seed : Int) (w : List Char), w ∈ ls →
      (w.length : Int) ≤ ls.foldl (fun a l => max a (l.length : Int)) seed := by
  intro ls
  induction ls with
  | nil => intro seed w hw; cases hw
  | cons v t ih =>
    intro seed w hw
    rcases List.mem_cons.mp hw with hw | hw
    · subst hw
      exact le_trans (le_max_right seed (w.length : Int))
        (foldl_max_seed_le t (max seed (w.length : Int)))
    · exact ih (max seed (v.length : Int)) w hw

/-- `maxLenList` is bounded by any nonnegative bound on all members. -/
theorem maxLenList_le_of_all :
    ∀ (ls : List (List Char)) (seed b : Int), seed ≤ b →
      (∀ l ∈ ls, (l.length : Int) ≤ b) →
      ls.foldl (fun a l => max a (l.length : Int)) seed ≤ b := by
  intro ls
  induction ls with
  | nil => intro seed b hs _; exact hs
  | cons v t ih =>
    intro seed b hs hall
    exact ih (max seed (v.length : Int)) b
      (max_le hs (hall v (by simp))) (fun l hl => hall l (by simp [hl]))

/-- Membership in the concatenation-`foldr` of per-line blocks. -/
theorem mem_foldr_append (f : List Char → List (List Char)) :
    ∀ (L : List (List Char)) (x : List Char),
      x ∈ L.foldr (fun l rest => f l ++ rest) [] ↔ ∃ l, l ∈ L ∧ x ∈ f l := by
  intro L
  induction L with
  | nil => intro x; simp
  | cons a t ih =>
    intro x
    simp only [List.foldr_cons, List.mem_append, ih]
    constructor
    · rintro (hx | ⟨l, hl, hx⟩)
      · exact ⟨a, by simp, hx⟩
      · exact ⟨l, by simp [hl], hx⟩
    · rintro ⟨l, hl, hx⟩
      rcases List.mem_cons.mp hl with h | h
      · subst h; exact Or.inl hx
      · exact Or.inr ⟨l, h, hx⟩

/-- Membership in the wrap stage decomposes into a source line and its
block. -/
theorem mem_commentWrappedLines (maxLineLength ind : Nat) (text : String) (x : List Char) :
    x ∈ commentWrappedLines maxLineLength ind text ↔
      ∃ l, l ∈ commentSourceLines text ∧
        x ∈ wrapBlock (commentBudget maxLineLength ind) l := by
  unfold commentWrappedLines
  exact mem_foldr_append (wrapBlock (commentBudget maxLineLength ind))
    (commentSourceLines text) x

/-- A word of a line that exceeds the budget survives the line's wrap
block as a whole line of its own. -/
theorem mem_wrapBlock_of_long_word (b : Int) (l w : List Char)
    (hw : w ∈ splitOnChar ' ' l) (hlong : b < (w.length : Int)) :
    w ∈ wrapBlock b l := by
  unfold wrapBlock
  have hll : w.length ≤ l.length := length_le_of_mem_splitOnChar ' ' l w hw
  have hll' : (w.length : Int) ≤ (l.length : Int) := by exact_mod_cast hll
  rw [if_pos (by omega)]
  exact wrapGo_mem_of_long_word b (splitOnChar ' ' l) [] [] w hw hlong

/-- When every word of the line fits the budget, so does every line of
its wrap block. -/
theorem wrapBlock_bounded (b : Int) (l : List Char)
    (hwords : ∀ w ∈ splitOnChar ' ' l, (w.length : Int) ≤ b)
    (x : List Char) (hx : x ∈ wrapBlock b l) : (x.length : Int) ≤ b := by
  unfold wrapBlock at hx
  by_cases hl : b < (l.length : Int)
  · rw [if_pos hl] at hx
    have hb : (0 : Int) ≤ b := by
      rcases hsp : splitOnChar ' ' l with _ | ⟨h, t⟩
      · exact absurd hsp (splitOnChar_ne_nil ' ' l)
      · have hh := hwords h (by rw [hsp]; simp)
        have h0 : (0 : Int) ≤ (h.length : Int) := Int.ofNat_nonneg _
        omega
    exact wrapGo_bounded b (splitOnChar ' ' l) [] [] hwords (by simp)
      (by simpa using hb) x hx
  · rw [if_neg hl] at hx
    simp only [List.mem_singleton] at hx
    subst hx
    omega

/-- A line of the comment body block contains the line's text verbatim. -/
theorem subword_of_mem_commentBody (ind : Nat) (lines : List (List Char)) (w : List Char)
    (hw : w ∈ lines) : ∃ c, c ∈ commentBody ind lines ∧ SubListOf w c.data := by
  rcases lines with _ | ⟨a, _ | ⟨b, t⟩⟩
  · cases hw
  · rcases List.mem_singleton.mp hw with rfl
    refine ⟨mkLine ind ("/** " ++ String.mk w ++ " */"), by simp [commentBody], ?_⟩
    refine ⟨(tabs ind).data ++ "/** ".data, " */".data ++ nl.data, ?_⟩
    simp [mkLine, String.data_append, List.append_assoc]
  · refine ⟨if w.isEmpty then mkLine ind " *" else mkLine ind (" * " ++ String.mk w), ?_, ?_⟩
    · have hmem : (if w.isEmpty then mkLine ind " *" else mkLine ind (" * " ++ String.mk w)) ∈
          (a :: b :: t).map fun l =>
            if l.isEmpty then mkLine ind " *" else mkLine ind (" * " ++ String.mk l) :=
        List.mem_map_of_mem _ hw
      simp only [commentBody, List.mem_append, List.mem_cons]
      exact Or.inl (Or.inr (by simpa using hmem))
    · by_cases he : w.isEmpty
      · rw [if_pos he]
        have : w = [] := List.isEmpty_iff.mp he
        subst this
        exact ⟨(mkLine ind " *").data, [], by simp⟩
      · rw [if_neg he]
        refine ⟨(tabs ind).data ++ " * ".data, nl.data, ?_⟩
        simp [mkLine, String.data_append, List.append_assoc]

/-- C9: a clean word of the sanitised comment text that exceeds the width
budget is emitted unbroken inside some chunk of
`TypescriptTextWriter.comment`, and the whole block is flanked by the
tslint `max-line-length` disable/enable marker lines; when every word of
every sanitised line fits the budget, the markers are never emitted and
the chunks are exactly the comment body. -/
theorem comment_longword_markers (maxLineLength ind : Nat) (text : String) :
    (∀ l w, l ∈ commentSourceLines text → w ∈ splitOnChar ' ' l →
      cleanWord w = true → commentBudget maxLineLength ind < (w.length : Int) →
      (∃ c, c ∈ commentChunks maxLineLength ind text ∧ SubListOf w c.data) ∧
      commentChunks maxLineLength ind text =
        [mkLine ind disableMarkerText] ++
          commentBody ind (commentFinalLines maxLineLength ind text) ++
          [mkLine ind enableMarkerText]) ∧
    ((∀ l ∈ commentSourceLines text, ∀ w ∈ splitOnChar ' ' l,
        (w.length : Int) ≤ commentBudget maxLineLength ind) →
      commentHasMarkers maxLineLength ind text = false ∧
      commentChunks maxLineLength ind text =
        commentBody ind (commentFinalLines maxLineLength ind text)) := by
  constructor
  · intro l w hl hw hclean hlong
    obtain ⟨hne, hws, hirr⟩ := cleanWord_props w hclean
    have hwb : w ∈ wrapBlock (commentBudget maxLineLength ind) l :=
      mem_wrapBlock_of_long_word _ l w hw hlong
    have hwrapped : w ∈ commentWrappedLines maxLineLength ind text :=
      (mem_commentWrappedLines maxLineLength ind text w).mpr ⟨l, hl, hwb⟩
    have htrim : trimL w = w := trimL_eq_self w hws
    have hnorm : (w.map fun c => if isIrregularSpace c then ' ' else c) = w :=
      map_norm_eq_self w hirr
    have hfin : w ∈ commentFinalLines maxLineLength ind text := by
      unfold commentFinalLines
      have h1 : trimL w ∈ (commentWrappedLines maxLineLength ind text).map trimL :=
        List.mem_map_of_mem trimL hwrapped
      rw [htrim] at h1
      have h2 := List.mem_map_of_mem
        (List.map fun c => if isIrregularSpace c then ' ' else c) h1
      rwa [hnorm] at h2
    have hmax : commentBudget maxLineLength ind <
        maxLenList (commentFinalLines maxLineLength ind text) := by
      refine lt_of_lt_of_le hlong ?_
      unfold maxLenList
      exact le_maxLenList_of_mem _ 0 w hfin
    have hmark : commentHasMarkers maxLineLength ind text = true := by
      have hnil : commentFinalLines maxLineLength ind text ≠ [] :=
        List.ne_nil_of_mem hfin
      unfold commentHasMarkers
      obtain ⟨x, xs, hfl⟩ : ∃ x xs,
          commentFinalLines maxLineLength ind text = x :: xs := by
        rcases hq : commentFinalLines maxLineLength ind text with _ | ⟨x, xs⟩
        · exact absurd hq hnil
        · exact ⟨x, xs, rfl⟩
      rw [hfl]
      rw [hfl] at hmax
      simp [hmax]
    obtain ⟨c, hc, hsub⟩ :=
      subword_of_mem_commentBody ind (commentFinalLines maxLineLength ind text) w hfin
    refine ⟨⟨c, ?_, hsub⟩, ?_⟩
    · simp only [commentChunks, hmark, if_true, List.mem_append, List.mem_singleton]
      simp [hc]
    · simp [commentChunks, hmark]
  · intro hfit
    have hbound : ∀ x ∈ commentFinalLines maxLineLength ind text,
        (x.length : Int) ≤ commentBudget maxLineLength ind := by
      intro x hx
      unfold commentFinalLines at hx
      rcases List.mem_map.mp hx with ⟨y, hy, hxy⟩
      rcases List.mem_map.mp hy with ⟨z, hz, hzy⟩
      rcases (mem_commentWrappedLines maxLineLength ind text z).mp hz with ⟨l, hl, hzb⟩
      have hzlen : (z.length : Int) ≤ commentBudget maxLineLength ind :=
        wrapBlock_bounded _ l (hfit l hl) z hzb
      have hxlen : x.length = y.length := by rw [← hxy]; simp
      have hylen : y.length ≤ z.length := by rw [← hzy]; exact trimL_length_le z
      omega
    have hmarkf : commentHasMarkers maxLineLength ind text = false := by
      unfold commentHasMarkers
      rcases hfl : commentFinalLines maxLineLength ind text with _ | ⟨x, xs⟩
      · simp
      · have hx0 := hbound x (by rw [hfl]; simp)
        have h00 : (0 : Int) ≤ (x.length : Int) := Int.ofNat_nonneg _
        have h0 : (0 : Int) ≤ commentBudget maxLineLength ind := by omega
        have hml : maxLenList (x :: xs) ≤ commentBudget maxLineLength ind := by
          unfold maxLenList
          exact maxLenList_le_of_all (x :: xs) 0 _ h0
            (fun u hu => hbound u (by rw [hfl]; exact hu))
        have hnl : ¬ commentBudget maxLineLength ind < maxLenList (x :: xs) :=
          not_lt.mpr hml
        simp [hnl]
    exact ⟨hmarkf, by simp [commentChunks, hmarkf]⟩

/-- Witness for C9 at a 30-column configuration and depth 0 (budget 23):
the 29-character word of `"see ... ok"` exceeds the budget, survives
unbroken and forces the markers; `"short words only"` has no over-long
word and gets none. -/
theorem comment_longword_markers_witness :
    ((∃ c, c ∈ commentChunks 30 0 "see aaaaaaaaaaaaaaaaaaaaaaaaaaaaa ok" ∧
        SubListOf ("aaaaaaaaaaaaaaaaaaaaaaaaaaaaa".data) c.data) ∧
      commentChunks 30 0 "see aaaaaaaaaaaaaaaaaaaaaaaaaaaaa ok" =
        [mkLine 0 disableMarkerText] ++
          commentBody 0 (commentFinalLines 30 0 "see aaaaaaaaaaaaaaaaaaaaaaaaaaaaa ok") ++
          [mkLine 0 enableMarkerText]) ∧
    (commentHasMarkers 30 0 "short words only" = false ∧
      commentChunks 30 0 "short words only" =
        commentBody 0 (commentFinalLines 30 0 "short words only")) :=
  ⟨(comment_longword_markers 30 0 "see aaaaaaaaaaaaaaaaaaaaaaaaaaaaa ok").1
      ("see aaaaaaaaaaaaaaaaaaaaaaaaaaaaa ok".data)
      ("aaaaaaaaaaaaaaaaaaaaaaaaaaaaa".data)
      (by decide) (by decide) (by decide) (by decide),
    (comment_longword_markers 30 0 "short words only").2 (by decide)⟩
